import Mathlib

/-!
# Verification of the HISE MCP script patch/edit engine

A shallow embedding of the script-manipulation engine of the repository
(`src/script-utils.ts` and the script cache / line-edit operations of the
HISE client), together with proofs of the specification claims.

JavaScript strings are modelled as `List Char` (`Str`); JavaScript numbers
that hold line indices are modelled as `Int` (they are integers at every
call site that matters, and may be negative).
-/

set_option maxRecDepth 10000

namespace HiseMcp

/-- JavaScript strings are modelled as lists of characters. -/
abbrev Str := List Char

/-- Convert a Lean string literal to the `Str` model. -/
def str (s : String) : Str := s.data

/-- The JavaScript whitespace characters relevant to `String.prototype.trim`
and the regex class `\s` (the ASCII subset; the source never manipulates the
exotic Unicode spaces). -/
def isJsSpace (c : Char) : Bool :=
  c = ' ' || c = '\t' || c = '\n' || c = '\r' || c = '\x0b' || c = '\x0c'

/-- JavaScript `String.prototype.trim`. -/
def jsTrim (s : Str) : Str :=
  ((s.dropWhile isJsSpace).reverse.dropWhile isJsSpace).reverse

/-- Decimal digit character for a digit value (values `≥ 9` render as `'9'`;
only ever used with arguments `< 10`). -/
def digitChar (d : Nat) : Char :=
  match d with
  | 0 => '0' | 1 => '1' | 2 => '2' | 3 => '3' | 4 => '4'
  | 5 => '5' | 6 => '6' | 7 => '7' | 8 => '8' | _ => '9'

/-- Fuel-driven decimal rendering of a natural number (the fuel makes the
definition structurally recursive, hence kernel-computable). -/
def natCharsAux : Nat → Nat → Str
  | 0, _ => []
  | f + 1, n =>
    if n < 10 then [digitChar n]
    else natCharsAux f (n / 10) ++ [digitChar (n % 10)]

/-- Decimal rendering of a natural number, as produced by JavaScript template
interpolation of a nonnegative integer. -/
def natChars (n : Nat) : Str := natCharsAux (n + 1) n

/-- Decimal rendering of an integer, as produced by JavaScript template
interpolation. -/
def intChars (i : Int) : Str :=
  if i < 0 then '-' :: natChars i.natAbs else natChars i.toNat

/-- Numeric value of a list of decimal digit characters
(`parseInt` semantics on a string of digits). -/
def parseNatDigits (s : Str) : Nat :=
  s.foldl (fun n c => n * 10 + (c.toNat - 48)) 0

/-- JavaScript `s.split('\n')`. -/
def splitOnNl : Str → List Str
  | [] => [[]]
  | c :: cs =>
    if c = '\n' then [] :: splitOnNl cs
    else
      match splitOnNl cs with
      | [] => [[c]]
      | l :: ls => (c :: l) :: ls

/-- JavaScript `lines.join('\n')`. -/
def joinNl : List Str → Str
  | [] => []
  | [l] => l
  | l :: ls => l ++ '\n' :: joinNl ls

/-- Whether a line starts with `"@@"` (JavaScript `line.startsWith('@@')`). -/
def atAt (l : Str) : Bool :=
  match l with
  | '@' :: '@' :: _ => true
  | _ => false

/-- JavaScript `hay.includes(needle)` (substring test). -/
def containsSub (needle : Str) : Str → Bool
  | [] => needle.isPrefixOf ([] : Str)
  | c :: rest => needle.isPrefixOf (c :: rest) || containsSub needle rest

/-- The data captured by the hunk-header regex
`^@@\s*-(\d+)(?:,\d+)?\s*\+(\d+)(?:,\d+)?\s*@@(.*)$` of `fixPatchHeaders`
(`src/script-utils.ts:47`): the two start numbers, the two optional counts
(which the source discards), and the suffix after the closing `@@`. -/
structure HeaderInfo where
  oldStart : Nat
  oldCnt : Option Nat
  newStart : Nat
  newCnt : Option Nat
  suffix : Str
  deriving DecidableEq, Repr

/-- Parse the optional `(?:,\d+)?` group: a comma followed by at least one
digit.  When the group does not match, the input is left untouched (the regex
engine backtracks to the empty alternative). -/
def parseOptCount (s : Str) : Option Nat × Str :=
  match s with
  | ',' :: rest =>
    let ds := rest.takeWhile Char.isDigit
    if ds = [] then (none, s) else (some (parseNatDigits ds), rest.dropWhile Char.isDigit)
  | _ => (none, s)

/-- Deterministic parser equivalent to the hunk-header regex
`^@@\s*-(\d+)(?:,\d+)?\s*\+(\d+)(?:,\d+)?\s*@@(.*)$`
used by `fixPatchHeaders` (`src/script-utils.ts:47`).  Each regex piece has a
first-character set disjoint from the greedy star before it, so greedy
left-to-right matching never needs backtracking and this function matches the
regex exactly. -/
def parseHeader (l : Str) : Option HeaderInfo :=
  match l with
  | '@' :: '@' :: r0 =>
    match r0.dropWhile isJsSpace with
    | '-' :: r1 =>
      let ds1 := r1.takeWhile Char.isDigit
      if ds1 = [] then none
      else
        let (oc, r2) := parseOptCount (r1.dropWhile Char.isDigit)
        match r2.dropWhile isJsSpace with
        | '+' :: r3 =>
          let ds2 := r3.takeWhile Char.isDigit
          if ds2 = [] then none
          else
            let (nc, r4) := parseOptCount (r3.dropWhile Char.isDigit)
            match r4.dropWhile isJsSpace with
            | '@' :: '@' :: suf =>
              some ⟨parseNatDigits ds1, oc, parseNatDigits ds2, nc, suf⟩
            | _ => none
        | _ => none
    | _ => none
  | _ => none

/-- JavaScript `l.startsWith('-')`. -/
def isRemLine (l : Str) : Bool :=
  match l with
  | '-' :: _ => true
  | _ => false

/-- JavaScript `l.startsWith('+')`. -/
def isAddLine (l : Str) : Bool :=
  match l with
  | '+' :: _ => true
  | _ => false

/-- JavaScript `l.startsWith(' ') || l === ''` — a context line; per the
source (and §3 of the spec) a fully empty line counts as context. -/
def isCtxLine (l : Str) : Bool :=
  match l with
  | ' ' :: _ => true
  | [] => true
  | _ => false

/-- The body-scanning loop of `fixPatchHeaders` (`src/script-utils.ts:59-73`):
walk the lines after a hunk header until the next line starting with `"@@"`
(or the end), counting removed lines for the old side, added lines for the
new side, and context lines (a leading space, or a fully empty line) for
both; any other line counts for neither side. -/
def countHunkLoop : List Str → Nat × Nat
  | [] => (0, 0)
  | l :: rest =>
    if atAt l then (0, 0)
    else
      let (o, n) := countHunkLoop rest
      if isRemLine l then (o + 1, n)
      else if isAddLine l then (o, n + 1)
      else if isCtxLine l then (o + 1, n + 1)
      else (o, n)

/-- The corrected header emitted by `fixPatchHeaders`
(`src/script-utils.ts:76`):
`` `@@ -${oldStart},${oldLines} +${newStart},${newLines} @@${suffix}` ``,
written out character by character. -/
def mkHeader (a o c n : Nat) (suf : Str) : Str :=
  '@' :: '@' :: ' ' :: '-' ::
    (natChars a ++ ',' :: (natChars o ++ ' ' :: '+' ::
      (natChars c ++ ',' :: (natChars n ++ ' ' :: '@' :: '@' :: suf))))

/-- The per-line loop of `fixPatchHeaders` (`src/script-utils.ts:43-80`):
every line matching the hunk-header regex is re-emitted with recomputed
counts, every other line passes through unchanged. -/
def fixLines : List Str → List Str
  | [] => []
  | l :: rest =>
    match parseHeader l with
    | some h =>
      mkHeader h.oldStart (countHunkLoop rest).1 h.newStart (countHunkLoop rest).2 h.suffix
        :: fixLines rest
    | none => l :: fixLines rest

/-- `fixPatchHeaders` (`src/script-utils.ts:39-83`): split on `'\n'`, rewrite
hunk headers with recomputed line counts, join with `'\n'`. -/
def fixPatchHeaders (patch : Str) : Str :=
  joinNl (fixLines (splitOnNl patch))

/-- The `details` field of a `PatchResult` (`src/script-utils.ts:16-19`). -/
structure PatchDetails where
  reason : Str
  suggestion : Option Str := none
  deriving DecidableEq, Repr

/-- `PatchResult` (`src/script-utils.ts:11-20`). -/
structure PatchResult where
  success : Bool
  script : Option Str := none
  appliedPatch : Option Str := none
  error : Option Str := none
  details : Option PatchDetails := none
  deriving DecidableEq, Repr

/-- `PatchOptions` (`src/script-utils.ts:25-27`); an absent `fuzzFactor` is
`none`. -/
structure PatchOptions where
  fuzzFactor : Option Nat := none
  deriving DecidableEq, Repr

/-- Possible behaviors of the library `applyPatch` call
(`src/script-utils.ts:128`): return a new script, return `false`
(hunk could not be located), or throw an exception carrying a message. -/
inductive ApplyOutcome where
  | ok (s : Str)
  | noMatch
  | thrown (msg : Str)
  deriving DecidableEq, Repr

/-- `applyPatchToScript` (`src/script-utils.ts:93-158`), parameterized by the
behavior `lib` of the external `applyPatch` library call so that the
error-contract theorems quantify over every possible library behavior,
including throwing.  Mirrors the source exactly: default `fuzzFactor = 2`,
empty-patch check (`!patch || patch.trim() === ''`), `@@`-marker check,
header normalization, then the guarded library call. -/
def applyPatchToScriptWith (lib : Str → Str → Nat → ApplyOutcome)
    (script patch : Str) (options : PatchOptions) : PatchResult :=
  let fuzzFactor := options.fuzzFactor.getD 2
  if jsTrim patch = [] then
    { success := false
      error := some (str "Empty patch provided")
      details := some ⟨str "The patch string is empty",
        some (str "Provide a valid unified diff patch")⟩ }
  else if ¬ containsSub (str "@@") patch then
    { success := false
      error := some (str "Invalid patch format")
      details := some ⟨str "Patch does not contain unified diff hunk headers (@@)",
        some (str "Ensure the patch is in unified diff format with @@ markers")⟩ }
  else
    let fixedPatch := fixPatchHeaders patch
    match lib script fixedPatch fuzzFactor with
    | .noMatch =>
      { success := false
        error := some (str "Patch failed to apply")
        details := some ⟨str "Context mismatch - the script content does not match the patch context",
          some (str "Re-read the script with get_script and regenerate the patch, or increase fuzzFactor")⟩ }
    | .ok result =>
      { success := true, script := some result, appliedPatch := some fixedPatch }
    | .thrown m =>
      { success := false
        error := some (str "Patch error: " ++ m)
        details := some ⟨str "An exception occurred while applying the patch",
          some (str "Check the patch format and try again")⟩ }

/-- One parsed hunk: the two start positions from the header and the raw body
lines (tagged with their leading `' '`, `'-'`, `'+'` characters). -/
structure RawHunk where
  oldStart : Nat
  newStart : Nat
  body : List Str
  deriving DecidableEq, Repr

/-- Modelled from the spec: body consumption of the external unified-diff
parser.  The npm `diff` library that `applyPatchToScript` delegates to is not
part of this repository; per §4.2/§6 of the spec it consumes, after a hunk
header, body lines prefixed `' '`, `'-'`, `'+'` or fully empty (an empty
line counts as context on both sides), until the header's old and new counts
are both satisfied; any other line while the counts are unfulfilled is a
parse failure. -/
def takeBody (oldC newC : Nat) (ls : List Str) (oT nT : Nat) :
    Option (List Str × List Str) :=
  if oldC ≤ oT ∧ newC ≤ nT then some ([], ls)
  else
    match ls with
    | [] => none
    | l :: rest =>
      if isRemLine l then (takeBody oldC newC rest (oT + 1) nT).map (fun p => (l :: p.1, p.2))
      else if isAddLine l then (takeBody oldC newC rest oT (nT + 1)).map (fun p => (l :: p.1, p.2))
      else if isCtxLine l then
        (takeBody oldC newC rest (oT + 1) (nT + 1)).map (fun p => (l :: p.1, p.2))
      else none

/-- Modelled from the spec: the external parser's hunk loop.  Each hunk is a
header line (grammar `@@ -oldStart[,oldCount] +newStart[,newCount] @@[ suffix]`,
a missing count defaulting to 1) followed by its body as consumed by
`takeBody`.  The fuel argument (instantiated with the number of lines) only
makes the recursion structural. -/
def parseByCountsAux : Nat → List Str → Option (List RawHunk)
  | 0, ls => match ls with | [] => some [] | _ => none
  | _ + 1, [] => some []
  | f + 1, l :: rest =>
    match parseHeader l with
    | none => none
    | some hd =>
      match takeBody (hd.oldCnt.getD 1) (hd.newCnt.getD 1) rest 0 0 with
      | none => none
      | some (body, rest2) =>
        match parseByCountsAux f rest2 with
        | none => none
        | some hs => some (⟨hd.oldStart, hd.newStart, body⟩ :: hs)

/-- The old-side lines of a hunk body, tagged with whether each is a context
line (`true`) or a removed line (`false`); the content of a line is its text
after the leading tag character (an empty body line is an empty context
line). -/
def hunkOldTagged (body : List Str) : List (Bool × Str) :=
  body.filterMap (fun l =>
    if isRemLine l then some (false, l.tail)
    else if isCtxLine l then some (true, l.tail)
    else none)

/-- The old-side line contents of a hunk body. -/
def hunkOldLines (body : List Str) : List Str :=
  (hunkOldTagged body).map (·.2)

/-- The new-side line contents of a hunk body (context and added lines). -/
def hunkNewLines (body : List Str) : List Str :=
  body.filterMap (fun l =>
    if isAddLine l then some l.tail
    else if isCtxLine l then some l.tail
    else none)

/-- Number of leading context lines of a tagged old side. -/
def leadCtx (tagged : List (Bool × Str)) : Nat :=
  (tagged.takeWhile (·.1)).length

/-- Modelled from the spec: compare the expected old side of a hunk with the
document slice at the candidate position, collecting the indices of
mismatching context lines; `none` when the lengths differ or a removed line
mismatches (removed lines are never fuzz-tolerated). -/
def fuzzMatchAux : List (Bool × Str) → List Str → Nat → Option (List Nat)
  | [], [], _ => some []
  | (tag, s) :: ts, a :: acts, i =>
    match fuzzMatchAux ts acts (i + 1) with
    | none => none
    | some ms => if s = a then some ms else if tag then some (i :: ms) else none
  | _, _, _ => none

/-- Modelled from the spec: fuzz tolerance is "the number of lines of context
mismatch tolerated at hunk boundaries" (§4.2), so a hunk matches at a
position when every removed line matches exactly and the mismatching context
lines all lie in the leading or trailing context run, at most `fuzz` of
them. -/
def fuzzMatch (tagged : List (Bool × Str)) (actual : List Str) (fuzz : Nat) : Bool :=
  match fuzzMatchAux tagged actual 0 with
  | none => false
  | some ms =>
    decide (ms.length ≤ fuzz) &&
    ms.all (fun i => decide (i < leadCtx tagged) ||
      decide (tagged.length - leadCtx tagged.reverse ≤ i))

/-- Modelled from the spec: apply the parsed hunks in order.  Each hunk is
located at its header's old start position adjusted by the running offset
(the accumulated new-minus-old length difference of the hunks already
applied); its old side must fuzz-match the document there, and is replaced by
its new side. -/
def applyHunks (fuzz : Nat) : List Str → List RawHunk → Int → Option (List Str)
  | doc, [], _ => some doc
  | doc, h :: rest, offset =>
    let pos : Int := (h.oldStart : Int) - 1 + offset
    let oldT := hunkOldTagged h.body
    let newL := hunkNewLines h.body
    if 0 ≤ pos ∧ pos.toNat + oldT.length ≤ doc.length ∧
        fuzzMatch oldT ((doc.drop pos.toNat).take oldT.length) fuzz = true then
      applyHunks fuzz
        (doc.take pos.toNat ++ newL ++ doc.drop (pos.toNat + oldT.length))
        rest (offset + (newL.length : Int) - (oldT.length : Int))
    else none

/-- Modelled from the spec: the external `applyPatch` call of the npm `diff`
library (`src/script-utils.ts:128`), which is not part of this repository.
Parse failures throw; a hunk that cannot be located returns `false`
(`noMatch`); otherwise the rewritten document is returned. -/
def applyPatchLib (script patch : Str) (fuzz : Nat) : ApplyOutcome :=
  let ls := splitOnNl patch
  match parseByCountsAux ls.length ls with
  | none => .thrown (str "patch parse error")
  | some hunks =>
    match applyHunks fuzz (splitOnNl script) hunks 0 with
    | none => .noMatch
    | some out => .ok (joinNl out)

/-- `applyPatchToScript` (`src/script-utils.ts:93-158`) with the modelled
library behavior plugged in. -/
def applyPatchToScript (script patch : Str) (options : PatchOptions) : PatchResult :=
  applyPatchToScriptWith applyPatchLib script patch options

/-- `fixLineInScript` (`src/script-utils.ts:169-182`).  The thrown
JavaScript `Error` is modelled as `Except.error` carrying the exact message
`` `Line ${line} out of range (valid: 1-${lines.length})` ``. -/
def fixLineInScript (script : Str) (line : Int) (content : Str) : Except Str Str :=
  let lines := splitOnNl script
  if line < 1 ∨ (lines.length : Int) < line then
    .error (str "Line " ++ intChars line ++ str " out of range (valid: 1-" ++
      natChars lines.length ++ str ")")
  else
    .ok (joinNl (lines.set (line - 1).toNat content))

/-- `EditResult` (`src/script-utils.ts:187-191`). -/
structure EditResult where
  success : Bool
  script : Option Str := none
  error : Option Str := none
  deriving DecidableEq, Repr

/-- Fuel-driven worker for JavaScript `s.split(sep)` with a nonempty
separator `c0 :: sep1`: scan left to right, cutting at every occurrence of
the separator; `acc` holds the current piece reversed.  The fuel
(instantiated with `s.length + 1`) only makes the recursion structural. -/
def splitAux (c0 : Char) (sep1 : Str) : Nat → Str → Str → List Str
  | 0, _, acc => [acc.reverse]
  | _ + 1, [], acc => [acc.reverse]
  | f + 1, c :: rest, acc =>
    if (c0 :: sep1).isPrefixOf (c :: rest) then
      acc.reverse :: splitAux c0 sep1 f (rest.drop sep1.length) []
    else
      splitAux c0 sep1 f rest (c :: acc)

/-- JavaScript `s.split(sep)`: with an empty separator the string splits into
its individual characters, otherwise `splitAux` scans for the separator. -/
def jsSplit (sep : Str) (s : Str) : List Str :=
  match sep with
  | [] => s.map (fun c => [c])
  | c0 :: sep1 => splitAux c0 sep1 (s.length + 1) s []

/-- JavaScript `pieces.join(sep)`. -/
def jsJoin (sep : Str) : List Str → Str
  | [] => []
  | [x] => x
  | x :: xs => x ++ sep ++ jsJoin sep xs

/-- JavaScript `s.replace(old, new)` with a string pattern: replace the first
occurrence only (with an empty pattern, prepend). -/
def replaceFirst (old new : Str) : Str → Str
  | [] => if old.isPrefixOf ([] : Str) then new else []
  | c :: rest =>
    if old.isPrefixOf (c :: rest) then new ++ (c :: rest).drop old.length
    else c :: replaceFirst old new rest

/-- `editStringInScript` (`src/script-utils.ts:202-236`): not-found check,
occurrence count via `script.split(oldString).length - 1`, ambiguity gate,
then `split/join` (replace all) or `replace` (first occurrence only). -/
def editStringInScript (script oldString newString : Str)
    (replaceAll : Bool := false) : EditResult :=
  if ¬ containsSub oldString script then
    { success := false, error := some (str "oldString not found in script") }
  else
    let occurrences := (jsSplit oldString script).length - 1
    if 1 < occurrences ∧ replaceAll = false then
      { success := false
        error := some (str "oldString found " ++ natChars occurrences ++
          str " times - use replaceAll to replace all occurrences, or provide more context to make it unique") }
    else
      { success := true
        script := some (if replaceAll then jsJoin newString (jsSplit oldString script)
          else replaceFirst oldString newString script) }

/-- `shouldAllowSetScript` (`src/script-utils.ts:245-256`): allow when the
existing script is empty or whitespace-only, otherwise iff its line count is
at most `maxLines`. -/
def shouldAllowSetScript (existingScript : Str) (maxLines : Nat) : Bool :=
  if jsTrim existingScript = [] then true
  else (splitOnNl existingScript).length ≤ maxLines

/-- One entry of the `edits` array of `editScript` (per-line replacement). -/
structure LineEdit where
  line : Int
  content : Str
  deriving DecidableEq, Repr

/-- The `replaceRange` parameter of `editScript`. -/
structure RangeSpec where
  startLine : Int
  endLine : Int
  content : Str
  deriving DecidableEq, Repr

/-- The `insertAfter` parameter of `editScript`. -/
structure InsertSpec where
  line : Int
  content : Str
  deriving DecidableEq, Repr

/-- The exactly-one operation of an `editScript` call (the source validates
that exactly one of the four parameters is supplied; the inductive carries
that by construction). -/
inductive EditOp where
  | edits (es : List LineEdit)
  | replaceRange (r : RangeSpec)
  | insertAfter (ins : InsertSpec)
  | deleteLines (ds : List Int)
  deriving DecidableEq, Repr

/-- The `edits` loop of `editScript` (`hise-client.ts`, part_014:928-934):
each edit is bounds-checked against the current line array (whose length an
in-place assignment never changes) and applied by assignment. -/
def applyEditsLoop : List Str → List LineEdit → Except Str (List Str)
  | lines, [] => .ok lines
  | lines, e :: rest =>
    if e.line < 1 ∨ (lines.length : Int) < e.line then
      .error (str "Line " ++ intChars e.line ++ str " out of range (1-" ++
        natChars lines.length ++ str ")")
    else
      applyEditsLoop (lines.set (e.line - 1).toNat e.content) rest

/-- The `deleteLines` loop of `editScript` (part_014:949-958): the supplied
numbers, sorted descending, are each bounds-checked against the current
(shrinking) line array and removed by `splice(line - 1, 1)`. -/
def deleteLoop : List Str → List Int → Except Str (List Str)
  | lines, [] => .ok lines
  | lines, d :: rest =>
    if d < 1 ∨ (lines.length : Int) < d then
      .error (str "Line " ++ intChars d ++ str " out of range for delete (1-" ++
        natChars lines.length ++ str ")")
    else
      deleteLoop (lines.take (d - 1).toNat ++ lines.drop d.toNat) rest

/-- The pure line-operation core of `editScript` (part_014:925-958), applied
to the cached line array.  JavaScript
`[...deleteLines].sort((a, b) => b - a)` sorts descending; a descending
sorted permutation of a list of integers is unique, so it is modelled as the
reverse of an ascending insertion sort. -/
def editScriptCore (lines0 : List Str) (op : EditOp) : Except Str (List Str) :=
  match op with
  | .edits es => applyEditsLoop lines0 es
  | .replaceRange r =>
    if r.startLine < 1 ∨ r.endLine < r.startLine ∨ (lines0.length : Int) < r.endLine then
      .error (str "Invalid range: " ++ intChars r.startLine ++ ['-'] ++ intChars r.endLine ++
        str " (valid: 1-" ++ natChars lines0.length ++ str ")")
    else
      .ok (lines0.take (r.startLine - 1).toNat ++ splitOnNl r.content ++
        lines0.drop r.endLine.toNat)
  | .insertAfter ins =>
    if ins.line < 0 ∨ (lines0.length : Int) < ins.line then
      .error (str "Line " ++ intChars ins.line ++ str " out of range for insert (0-" ++
        natChars lines0.length ++ str ")")
    else
      .ok (lines0.take ins.line.toNat ++ splitOnNl ins.content ++ lines0.drop ins.line.toNat)
  | .deleteLines ds => deleteLoop lines0 ((ds.insertionSort (· ≤ ·)).reverse)

/-- `CachedScript` (part_014: cache entries stored by `cacheScript`). -/
structure CachedScript where
  script : Str
  lines : List Str
  timestamp : Nat
  hash : Str
  deriving DecidableEq, Repr

/-- The script cache, keyed by the string produced by `getScriptCacheKey`. -/
abbrev CacheMap := Str → Option CachedScript

/-- `getScriptCacheKey` (part_014:711-713):
`` callback ? `${moduleId}:${callback}` : moduleId `` — note an empty-string
callback is falsy in JavaScript and falls back to the bare module id. -/
def getScriptCacheKey (moduleId : Str) (callback : Option Str) : Str :=
  match callback with
  | some cb => if cb = [] then moduleId else moduleId ++ ':' :: cb
  | none => moduleId

/-- `cacheScript` (part_014:718-726): store content, derived line array,
timestamp and content hash in one atomic entry.  The hash function
(`computeScriptHash`, a sha256 digest from the node crypto library) is kept
abstract as a parameter `hashFn`. -/
def cacheScript (hashFn : Str → Str) (now : Nat) (cache : CacheMap)
    (moduleId : Str) (callback : Option Str) (script : Str) : CacheMap :=
  fun k =>
    if k = getScriptCacheKey moduleId callback then
      some ⟨script, splitOnNl script, now, hashFn script⟩
    else cache k

/-- The outcome of the HTTP fetch inside `getScript`, as relevant to the
cache: the response's `success` flag and optional `script` payload. -/
structure FetchResult where
  success : Bool
  script : Option Str
  deriving DecidableEq, Repr

/-- JavaScript truthiness of `result.script` (an empty string is falsy). -/
def scriptTruthy : Option Str → Bool
  | some s => decide (s ≠ [])
  | none => false

/-- JavaScript truthiness of `options?.startLine` (absent or `0` is falsy). -/
def startLineTruthy : Option Int → Bool
  | some v => decide (v ≠ 0)
  | none => false

/-- The cache effect of `getScript` (part_014:807-811): the fetched script is
cached iff the fetch succeeded with a truthy script and no line-range
filtering was requested (`result.success && result.script &&
!options?.startLine`). -/
def getScriptCacheStep (hashFn : Str → Str) (now : Nat) (cache : CacheMap)
    (moduleId : Str) (callback : Option Str) (resp : FetchResult)
    (startLine : Option Int) : CacheMap :=
  match resp.script with
  | some s =>
    if resp.success && decide (s ≠ []) && !startLineTruthy startLine then
      cacheScript hashFn now cache moduleId callback s
    else cache
  | none => cache

/-- The cache-and-control-flow of `editScript` (part_014:899-971), with the
two external HTTP calls supplied as inputs: `fetchResp` is what the
`getScript` fetch returned and `writeOutcome` is what the `setScript` call
did (`none`: it threw; `some b`: it returned with `success = b`).  Thrown
errors are `Except.error`.  Mirrors the source order: fetch (which caches on
success), failure check, cache lookup, the line operation, then the write
followed by an unconditional `cacheScript` of the locally edited script
("regardless of success/failure"). -/
def editScriptModel (hashFn : Str → Str) (nowFetch nowWrite : Nat)
    (cache : CacheMap) (moduleId : Str) (callback : Option Str) (op : EditOp)
    (fetchResp : FetchResult) (writeOutcome : Option Bool) :
    CacheMap × Except Str Bool :=
  let cache1 := getScriptCacheStep hashFn nowFetch cache moduleId callback fetchResp none
  if fetchResp.success = false ∨ scriptTruthy fetchResp.script = false then
    (cache1, .error (str "Failed to get script"))
  else
    match cache1 (getScriptCacheKey moduleId callback) with
    | none => (cache1, .error (str "Failed to cache script"))
    | some cached =>
      match editScriptCore cached.lines op with
      | .error e => (cache1, .error e)
      | .ok newLines =>
        let newScript := joinNl newLines
        match writeOutcome with
        | none => (cache1, .error (str "HISE API error"))
        | some b =>
          (cacheScript hashFn nowWrite cache1 moduleId callback newScript, .ok b)

/-- A cache entry is internally consistent: the stored line array and hash
are exactly the ones derived from the stored content. -/
def entryConsistent (hashFn : Str → Str) (e : CachedScript) : Prop :=
  e.lines = splitOnNl e.script ∧ e.hash = hashFn e.script

/-!  ## Spec-side definitions

The following definitions transcribe the specification's own wording
(§3, §4.1, §4.4, §4.5, §6, §8) and are used as the independent yardsticks the
code definitions above are compared against. -/

/-- Spec-side (§6): a hunk body line is prefixed `' '`, `'-'`, `'+'`, or
empty. -/
def isValidBodyLine (l : Str) : Bool :=
  isRemLine l || isAddLine l || isCtxLine l

/-- Spec-side: every body line is well-formed. -/
def validBody (ls : List Str) : Bool :=
  ls.all isValidBodyLine

/-- Spec-side: number of context lines of a body. -/
def ctxCount (ls : List Str) : Nat := (ls.filter isCtxLine).length

/-- Spec-side: number of removed lines of a body. -/
def remCount (ls : List Str) : Nat := (ls.filter isRemLine).length

/-- Spec-side: number of added lines of a body. -/
def addCount (ls : List Str) : Nat := (ls.filter isAddLine).length

/-- Spec-side: split a line list into the lines before the first
`"@@"`-line and the chunks, each chunk being an `"@@"`-line together with
the following non-`"@@"` lines. -/
def chunksAux : List Str → List Str × List (Str × List Str)
  | [] => ([], [])
  | l :: rest =>
    let (pre, cs) := chunksAux rest
    if atAt l then ([], (l, pre) :: cs) else (l :: pre, cs)

/-- Spec-side: parse a chunk list into hunks — every chunk's first line must
match the hunk-header grammar and its body must be well-formed. -/
def parseChunks : List (Str × List Str) → Option (List RawHunk)
  | [] => some []
  | (hl, body) :: rest =>
    match parseHeader hl with
    | none => none
    | some hd =>
      if validBody body then
        (parseChunks rest).map (fun hs => ⟨hd.oldStart, hd.newStart, body⟩ :: hs)
      else none

/-- Spec-side (§6): the structure of a unified-diff text — one or more
hunks, each a header line (with arbitrary, possibly corrupted or missing
counts) followed by its body, nothing before the first header.  The declared
header counts are deliberately ignored: correctness of a diff is a property
of its hunk bodies and start positions only. -/
def parseStructural (ls : List Str) : Option (List RawHunk) :=
  match chunksAux ls with
  | ([], c :: cs) => parseChunks (c :: cs)
  | _ => none

/-- Spec-side (§8 round trip): the hunks correctly describe the edit from
line list `A` to line list `B`, where `base` is the 1-based position in the
original document of the first line of the remaining suffix `A`.  Each hunk
sits at its stated `oldStart`, its old side is found there in `A`, and `B`
is `A` with each hunk's old side replaced by its new side. -/
def describesB : Nat → List Str → List RawHunk → List Str → Bool
  | _, A, [], B => A == B
  | base, A, h :: rest, B =>
    let oldL := hunkOldLines h.body
    let newL := hunkNewLines h.body
    let k := h.oldStart - base
    decide (base ≤ h.oldStart) &&
    decide (k + oldL.length ≤ A.length) &&
    ((A.drop k).take oldL.length == oldL) &&
    (B.take k == A.take k) &&
    ((B.drop k).take newL.length == newL) &&
    describesB (h.oldStart + oldL.length) (A.drop (k + oldL.length)) rest
      ((B.drop k).drop newL.length)

/-- Spec-side (§4.3 delete): keep exactly the lines whose 1-based position is
not in the delete set (`pos` is the position of the first remaining line). -/
def keepFrom (ds : List Int) : Int → List Str → List Str
  | _, [] => []
  | pos, l :: ls =>
    if pos ∈ ds then keepFrom ds (pos + 1) ls else l :: keepFrom ds (pos + 1) ls

/-- Fuel-driven worker for the spec-side non-overlapping occurrence count. -/
def countOccAux (c0 : Char) (sep1 : Str) : Nat → Str → Nat
  | 0, _ => 0
  | _ + 1, [] => 0
  | f + 1, c :: rest =>
    if (c0 :: sep1).isPrefixOf (c :: rest) then
      1 + countOccAux c0 sep1 f (rest.drop sep1.length)
    else countOccAux c0 sep1 f rest

/-- Spec-side (§4.4): the number of non-overlapping occurrences of a
nonempty substring, scanning left to right. -/
def countOccurrences (old s : Str) : Nat :=
  match old with
  | [] => 0
  | c0 :: sep1 => countOccAux c0 sep1 (s.length + 1) s

/-- Fuel-driven worker for the spec-side replace-every-occurrence. -/
def replaceAllAux (c0 : Char) (sep1 : Str) (new : Str) : Nat → Str → Str
  | 0, s => s
  | _ + 1, [] => []
  | f + 1, c :: rest =>
    if (c0 :: sep1).isPrefixOf (c :: rest) then
      new ++ replaceAllAux c0 sep1 new f (rest.drop sep1.length)
    else c :: replaceAllAux c0 sep1 new f rest

/-- Spec-side (§4.4): replace every non-overlapping occurrence of a nonempty
substring, scanning left to right. -/
def replaceAllSpec (old new s : Str) : Str :=
  match old with
  | [] => s
  | c0 :: sep1 => replaceAllAux c0 sep1 new (s.length + 1) s

/-- Spec-side (§4.5): the existing content is empty or all-whitespace. -/
def isWhitespaceOnly (s : Str) : Bool := s.all isJsSpace

deriving instance DecidableEq for Except

/-! ## Basic lemmas: split/join, trim, digits -/

theorem splitOnNl_ne_nil (s : Str) : splitOnNl s ≠ [] := by
  induction s with
  | nil => simp [splitOnNl]
  | cons c cs ih =>
    simp only [splitOnNl]
    split
    · simp
    · cases h : splitOnNl cs with
      | nil => simp
      | cons l ls => simp

theorem joinNl_splitOnNl (s : Str) : joinNl (splitOnNl s) = s := by
  induction s with
  | nil => simp [splitOnNl, joinNl]
  | cons c cs ih =>
    simp only [splitOnNl]
    split
    · rename_i h
      subst h
      cases h2 : splitOnNl cs with
      | nil => exact absurd h2 (splitOnNl_ne_nil cs)
      | cons l ls =>
        rw [h2] at ih
        cases ls with
        | nil => simp_all [joinNl]
        | cons l2 ls2 => simp_all [joinNl]
    · cases h2 : splitOnNl cs with
      | nil => exact absurd h2 (splitOnNl_ne_nil cs)
      | cons l ls =>
        rw [h2] at ih
        cases ls with
        | nil => simp_all [joinNl]
        | cons l2 ls2 => simp_all [joinNl]

theorem splitOnNl_no_newline (s : Str) : ∀ l ∈ splitOnNl s, '\n' ∉ l := by
  induction s with
  | nil => simp [splitOnNl]
  | cons c cs ih =>
    simp only [splitOnNl]
    split
    · intro l hl
      rcases List.mem_cons.mp hl with h | h
      · subst h; simp
      · exact ih l h
    · rename_i hc
      cases h2 : splitOnNl cs with
      | nil => exact absurd h2 (splitOnNl_ne_nil cs)
      | cons l0 ls =>
        rw [h2] at ih
        intro l hl
        rcases List.mem_cons.mp hl with h | h
        · subst h
          intro hmem
          rcases List.mem_cons.mp hmem with h | h
          · exact hc h.symm
          · exact ih l0 (by simp) h
        · exact ih l (by simp [h])

theorem splitOnNl_joinNl (ls : List Str) (hnl : ∀ l ∈ ls, '\n' ∉ l)
    (hne : ls ≠ []) : splitOnNl (joinNl ls) = ls := by
  induction ls with
  | nil => exact absurd rfl hne
  | cons l rest ih =>
    cases rest with
    | nil =>
      simp only [joinNl]
      have hl : '\n' ∉ l := hnl l (by simp)
      clear ih hne hnl
      induction l with
      | nil => simp [splitOnNl]
      | cons c cs ihl =>
        have hc : c ≠ '\n' := by intro h; exact hl (by simp [h])
        have hcs : '\n' ∉ cs := by intro h; exact hl (by simp [h])
        simp only [splitOnNl, if_neg hc]
        rw [ihl hcs]
    | cons l2 rest2 =>
      have hstep : splitOnNl (joinNl (l :: l2 :: rest2)) =
          (splitOnNl (l ++ '\n' :: joinNl (l2 :: rest2))) := rfl
      rw [hstep]
      have hl : '\n' ∉ l := hnl l (by simp)
      have htail : splitOnNl (joinNl (l2 :: rest2)) = l2 :: rest2 :=
        ih (fun x hx => hnl x (by simp [hx])) (by simp)
      clear hstep ih hne hnl
      induction l with
      | nil => simpa [splitOnNl] using htail
      | cons c cs ihl =>
        have hc : c ≠ '\n' := by intro h; exact hl (by simp [h])
        have hcs : '\n' ∉ cs := by intro h; exact hl (by simp [h])
        simp only [List.cons_append, splitOnNl, if_neg hc]
        rw [List.append_eq, ihl hcs]

theorem jsTrim_eq_nil_iff (s : Str) : jsTrim s = [] ↔ ∀ c ∈ s, isJsSpace c = true := by
  unfold jsTrim
  constructor
  · intro h c hc
    have h0 : List.dropWhile isJsSpace (List.dropWhile isJsSpace s).reverse = [] := by
      rwa [List.reverse_eq_nil_iff] at h
    have h1 : ∀ x ∈ (List.dropWhile isJsSpace s).reverse, isJsSpace x = true :=
      List.dropWhile_eq_nil_iff.mp h0
    have hsplit : c ∈ List.takeWhile isJsSpace s ++ List.dropWhile isJsSpace s := by
      rw [List.takeWhile_append_dropWhile]
      exact hc
    rcases List.mem_append.mp hsplit with h2 | h2
    · exact List.mem_takeWhile_imp h2
    · exact h1 c (List.mem_reverse.mpr h2)
  · intro h
    have h1 : s.dropWhile isJsSpace = [] := List.dropWhile_eq_nil_iff.mpr h
    simp [h1]

theorem digitChar_isDigit (d : Nat) : (digitChar d).isDigit = true := by
  unfold digitChar
  split <;> decide

theorem digitChar_ne_newline (d : Nat) : digitChar d ≠ '\n' := by
  unfold digitChar
  split <;> decide

theorem digitChar_toNat (d : Nat) (h : d < 10) : (digitChar d).toNat - 48 = d := by
  interval_cases d <;> decide

theorem natCharsAux_irrel : ∀ f g n, n < f → n < g → natCharsAux f n = natCharsAux g n := by
  intro f
  induction f with
  | zero => intro g n h; omega
  | succ f ih =>
    intro g n hf hg
    cases g with
    | zero => omega
    | succ g =>
      simp only [natCharsAux]
      split
      · rfl
      · rename_i h10
        have hlt : n / 10 < n := Nat.div_lt_self (by omega) (by omega)
        rw [ih g (n / 10) (by omega) (by omega)]

theorem natChars_unfold (n : Nat) :
    natChars n = if n < 10 then [digitChar n] else natChars (n / 10) ++ [digitChar (n % 10)] := by
  unfold natChars
  conv_lhs => rw [natCharsAux]
  split
  · rfl
  · rename_i h10
    have hlt : n / 10 < n := Nat.div_lt_self (by omega) (by omega)
    rw [natCharsAux_irrel n (n / 10 + 1) (n / 10) (by omega) (by omega)]

theorem natChars_ne_nil (n : Nat) : natChars n ≠ [] := by
  rw [natChars_unfold]
  split <;> simp

theorem natChars_all_digits (n : Nat) : ∀ c ∈ natChars n, c.isDigit = true := by
  induction n using Nat.strong_induction_on with
  | _ n ih =>
    rw [natChars_unfold]
    split
    · intro c hc
      simp at hc
      subst hc
      exact digitChar_isDigit n
    · rename_i h10
      intro c hc
      rcases List.mem_append.mp hc with h | h
      · exact ih (n / 10) (Nat.div_lt_self (by omega) (by omega)) c h
      · simp at h
        subst h
        exact digitChar_isDigit (n % 10)

theorem parseNatDigits_append (xs ys : Str) :
    parseNatDigits (xs ++ ys) = ys.foldl (fun n c => n * 10 + (c.toNat - 48)) (parseNatDigits xs) := by
  unfold parseNatDigits
  rw [List.foldl_append]

theorem parseNatDigits_natChars (n : Nat) : parseNatDigits (natChars n) = n := by
  induction n using Nat.strong_induction_on with
  | _ n ih =>
    rw [natChars_unfold]
    split
    · rename_i h10
      show (0 * 10 + ((digitChar n).toNat - 48)) = n
      rw [digitChar_toNat n h10]
      omega
    · rename_i h10
      rw [parseNatDigits_append]
      show (parseNatDigits (natChars (n / 10))) * 10 + ((digitChar (n % 10)).toNat - 48) = n
      rw [ih (n / 10) (Nat.div_lt_self (by omega) (by omega)),
        digitChar_toNat (n % 10) (Nat.mod_lt n (by omega))]
      omega

theorem natChars_no_newline (n : Nat) : '\n' ∉ natChars n := by
  intro h
  have := natChars_all_digits n '\n' h
  simp [Char.isDigit] at this

theorem takeWhile_append_all {α : Type} {p : α → Bool} (xs ys : List α)
    (h : ∀ c ∈ xs, p c = true) :
    List.takeWhile p (xs ++ ys) = xs ++ List.takeWhile p ys := by
  induction xs with
  | nil => simp
  | cons c cs ih =>
    have hc : p c = true := h c (by simp)
    simp only [List.cons_append, List.takeWhile_cons, hc, if_true]
    rw [ih (fun x hx => h x (by simp [hx]))]

theorem dropWhile_append_all {α : Type} {p : α → Bool} (xs ys : List α)
    (h : ∀ c ∈ xs, p c = true) :
    List.dropWhile p (xs ++ ys) = List.dropWhile p ys := by
  induction xs with
  | nil => simp
  | cons c cs ih =>
    have hc : p c = true := h c (by simp)
    simp only [List.cons_append, List.dropWhile_cons, hc, if_true]
    exact ih (fun x hx => h x (by simp [hx]))

/-! ## Lemmas about the hunk-header parser and the corrected headers -/

theorem digits_chunk (m : Nat) (c : Char) (r : Str) (hc : ¬ c.isDigit = true) :
    List.takeWhile Char.isDigit (natChars m ++ c :: r) = natChars m ∧
    List.dropWhile Char.isDigit (natChars m ++ c :: r) = c :: r := by
  constructor
  · rw [takeWhile_append_all _ _ (natChars_all_digits m),
      List.takeWhile_cons_of_neg hc, List.append_nil]
  · rw [dropWhile_append_all _ _ (natChars_all_digits m),
      List.dropWhile_cons_of_neg hc]

theorem parseHeader_mkHeader (a o c n : Nat) (suf : Str) :
    parseHeader (mkHeader a o c n suf) = some ⟨a, some o, c, some n, suf⟩ := by
  obtain ⟨ta, da⟩ := digits_chunk a ','
    (natChars o ++ ' ' :: '+' :: (natChars c ++ ',' :: (natChars n ++ ' ' :: '@' :: '@' :: suf)))
    (by decide)
  obtain ⟨to2, do2⟩ := digits_chunk o ' '
    ('+' :: (natChars c ++ ',' :: (natChars n ++ ' ' :: '@' :: '@' :: suf))) (by decide)
  obtain ⟨tc, dc⟩ := digits_chunk c ',' (natChars n ++ ' ' :: '@' :: '@' :: suf) (by decide)
  obtain ⟨tn, dn⟩ := digits_chunk n ' ' ('@' :: '@' :: suf) (by decide)
  simp only [mkHeader, parseHeader]
  rw [List.dropWhile_cons_of_pos (by decide), List.dropWhile_cons_of_neg (by decide)]
  simp only [ta, da, if_neg (natChars_ne_nil a)]
  simp only [parseOptCount, to2, do2, if_neg (natChars_ne_nil o)]
  rw [List.dropWhile_cons_of_pos (by decide), List.dropWhile_cons_of_neg (by decide)]
  simp only [tc, dc, if_neg (natChars_ne_nil c)]
  simp only [parseOptCount, tn, dn, if_neg (natChars_ne_nil n)]
  rw [List.dropWhile_cons_of_pos (by decide)]
  rw [List.dropWhile_cons_of_neg (by decide)]
  simp [parseNatDigits_natChars]

theorem parseHeader_atAt {l : Str} {hd : HeaderInfo} (h : parseHeader l = some hd) :
    atAt l = true := by
  unfold parseHeader at h
  split at h
  · rfl
  · simp at h

theorem atAt_mkHeader (a o c n : Nat) (suf : Str) : atAt (mkHeader a o c n suf) = true := rfl

theorem mem_of_mem_dropWhile {p : Char → Bool} {l : Str} {c : Char}
    (h : c ∈ l.dropWhile p) : c ∈ l := (List.dropWhile_sublist p).subset h

theorem parseOptCount_snd_subset (s : Str) : ∀ ch ∈ (parseOptCount s).2, ch ∈ s := by
  unfold parseOptCount
  split
  · rename_i rest
    dsimp only
    split
    · simp
    · intro ch hc
      simp only [List.mem_cons]
      exact Or.inr (mem_of_mem_dropWhile hc)
  · simp

theorem parseHeader_suffix_subset {l : Str} {hd : HeaderInfo}
    (h : parseHeader l = some hd) : ∀ ch ∈ hd.suffix, ch ∈ l := by
  unfold parseHeader at h
  split at h
  case h_2 => simp at h
  rename_i r0
  split at h
  case h_2 => simp at h
  rename_i r1 heq1
  dsimp only at h
  split at h
  case isTrue => simp at h
  rename_i hne1
  split at h
  case h_2 => simp at h
  rename_i r3 heq2
  split at h
  case isTrue => simp at h
  rename_i hne2
  split at h
  case h_2 => simp at h
  rename_i suf heq4
  rw [Option.some_inj] at h
  subst h
  intro ch hc
  simp only at hc
  have h1 : ch ∈ List.dropWhile isJsSpace (parseOptCount (List.dropWhile Char.isDigit r3)).2 := by
    rw [heq4]; simp [hc]
  have h2 := parseOptCount_snd_subset _ _ (mem_of_mem_dropWhile h1)
  have h3 := mem_of_mem_dropWhile h2
  have h4 : ch ∈ List.dropWhile isJsSpace (parseOptCount (List.dropWhile Char.isDigit r1)).2 := by
    rw [heq2]; simp [h3]
  have h5 := parseOptCount_snd_subset _ _ (mem_of_mem_dropWhile h4)
  have h6 := mem_of_mem_dropWhile h5
  have h7 : ch ∈ List.dropWhile isJsSpace r0 := by
    rw [heq1]; simp [h6]
  simp [mem_of_mem_dropWhile h7]

theorem mem_mkHeader {x : Char} {a o c n : Nat} {suf : Str} (h : x ∈ mkHeader a o c n suf) :
    x ∈ natChars a ∨ x ∈ natChars o ∨ x ∈ natChars c ∨ x ∈ natChars n ∨ x ∈ suf ∨
    x = '@' ∨ x = ' ' ∨ x = '-' ∨ x = ',' ∨ x = '+' := by
  simp only [mkHeader, List.mem_cons, List.mem_append] at h
  tauto

theorem mkHeader_no_newline {a o c n : Nat} {suf : Str} (hs : '\n' ∉ suf) :
    '\n' ∉ mkHeader a o c n suf := by
  intro h
  rcases mem_mkHeader h with h | h | h | h | h | h | h | h | h | h
  · exact natChars_no_newline a h
  · exact natChars_no_newline o h
  · exact natChars_no_newline c h
  · exact natChars_no_newline n h
  · exact hs h
  all_goals exact absurd h (by decide)

/-! ## Lemmas about `fixLines` and `fixPatchHeaders` -/

theorem countHunkLoop_fixLines (ls : List Str) :
    countHunkLoop (fixLines ls) = countHunkLoop ls := by
  induction ls with
  | nil => rfl
  | cons l rest ih =>
    cases hp : parseHeader l with
    | some hd =>
      have hat : atAt l = true := parseHeader_atAt hp
      simp only [fixLines, hp]
      simp [countHunkLoop, atAt_mkHeader, hat]
    | none =>
      simp only [fixLines, hp]
      cases hat : atAt l with
      | true => simp [countHunkLoop, hat]
      | false => simp [countHunkLoop, hat, ih]

theorem fixLines_length (ls : List Str) : (fixLines ls).length = ls.length := by
  induction ls with
  | nil => rfl
  | cons l rest ih => cases hp : parseHeader l <;> simp [fixLines, hp, ih]

theorem fixLines_ne_nil {ls : List Str} (h : ls ≠ []) : fixLines ls ≠ [] := by
  intro h2
  apply h
  have := fixLines_length ls
  rw [h2] at this
  exact List.length_eq_zero.mp this.symm

theorem fixLines_no_newline (ls : List Str) (h : ∀ l ∈ ls, '\n' ∉ l) :
    ∀ l ∈ fixLines ls, '\n' ∉ l := by
  induction ls with
  | nil => simp [fixLines]
  | cons l rest ih =>
    cases hp : parseHeader l with
    | some hd =>
      simp only [fixLines, hp]
      intro y hy
      rcases List.mem_cons.mp hy with h1 | h1
      · subst h1
        apply mkHeader_no_newline
        intro hns
        exact h _ (by simp) (parseHeader_suffix_subset hp '\n' hns)
      · exact ih (fun z hz => h z (by simp [hz])) y h1
    | none =>
      simp only [fixLines, hp]
      intro y hy
      rcases List.mem_cons.mp hy with h1 | h1
      · subst h1
        exact h _ (by simp)
      · exact ih (fun z hz => h z (by simp [hz])) y h1

theorem fixLines_idem (ls : List Str) : fixLines (fixLines ls) = fixLines ls := by
  induction ls with
  | nil => rfl
  | cons l rest ih =>
    cases hp : parseHeader l with
    | some hd =>
      simp only [fixLines, hp]
      simp only [fixLines, parseHeader_mkHeader, countHunkLoop_fixLines, ih]
    | none =>
      simp only [fixLines, hp]
      simp only [fixLines, hp, ih]

theorem splitOnNl_fixPatchHeaders (p : Str) :
    splitOnNl (fixPatchHeaders p) = fixLines (splitOnNl p) := by
  unfold fixPatchHeaders
  exact splitOnNl_joinNl _ (fixLines_no_newline _ (splitOnNl_no_newline p))
    (fixLines_ne_nil (splitOnNl_ne_nil p))

theorem fixPatchHeaders_idem_aux (p : Str) :
    fixPatchHeaders (fixPatchHeaders p) = fixPatchHeaders p := by
  show joinNl (fixLines (splitOnNl (fixPatchHeaders p))) = fixPatchHeaders p
  rw [splitOnNl_fixPatchHeaders, fixLines_idem]
  rfl

theorem isRemLine_cons_false {c : Char} (cs : Str) (h : c ≠ '-') :
    isRemLine (c :: cs) = false := by
  unfold isRemLine
  split
  · rename_i heq
    injection heq with h1 h2
    exact absurd h1 h
  · rfl

theorem isAddLine_cons_false {c : Char} (cs : Str) (h : c ≠ '+') :
    isAddLine (c :: cs) = false := by
  unfold isAddLine
  split
  · rename_i heq
    injection heq with h1 h2
    exact absurd h1 h
  · rfl

theorem isCtxLine_cons_false {c : Char} (cs : Str) (h : c ≠ ' ') :
    isCtxLine (c :: cs) = false := by
  unfold isCtxLine
  split
  · rename_i heq
    injection heq with h1 h2
    exact absurd h1 h
  · rename_i heq
    exact absurd heq (by simp)
  · rfl

theorem lineClassify (l : Str) :
    (isRemLine l = true ∧ isAddLine l = false ∧ isCtxLine l = false) ∨
    (isRemLine l = false ∧ isAddLine l = true ∧ isCtxLine l = false) ∨
    (isRemLine l = false ∧ isAddLine l = false ∧ isCtxLine l = true) ∨
    (isRemLine l = false ∧ isAddLine l = false ∧ isCtxLine l = false) := by
  cases l with
  | nil =>
    right; right; left
    exact ⟨rfl, rfl, rfl⟩
  | cons c cs =>
    by_cases h1 : c = '-'
    · subst h1
      left
      exact ⟨rfl, rfl, rfl⟩
    · by_cases h2 : c = '+'
      · subst h2
        right; left
        exact ⟨isRemLine_cons_false cs (by decide), rfl, rfl⟩
      · by_cases h3 : c = ' '
        · subst h3
          right; right; left
          exact ⟨isRemLine_cons_false cs (by decide), isAddLine_cons_false cs (by decide), rfl⟩
        · right; right; right
          exact ⟨isRemLine_cons_false cs h1, isAddLine_cons_false cs h2,
            isCtxLine_cons_false cs h3⟩

theorem countHunkLoop_eq_counts (ls : List Str) :
    countHunkLoop ls =
      (ctxCount (ls.takeWhile (fun x => !atAt x)) + remCount (ls.takeWhile (fun x => !atAt x)),
       ctxCount (ls.takeWhile (fun x => !atAt x)) + addCount (ls.takeWhile (fun x => !atAt x))) := by
  induction ls with
  | nil => simp [countHunkLoop, ctxCount, remCount, addCount]
  | cons l rest ih =>
    cases hat : atAt l with
    | true =>
      simp [countHunkLoop, hat, List.takeWhile_cons, ctxCount, remCount, addCount]
    | false =>
      simp only [countHunkLoop, hat, Bool.false_eq_true, if_false, ih, List.takeWhile_cons,
        Bool.not_false, if_true, ctxCount, remCount, addCount, List.filter_cons]
      rcases lineClassify l with ⟨h1, h2, h3⟩ | ⟨h1, h2, h3⟩ | ⟨h1, h2, h3⟩ | ⟨h1, h2, h3⟩ <;>
        simp [h1, h2, h3] <;> omega

theorem fixLines_takeWhile (ls : List Str) :
    (fixLines ls).takeWhile (fun x => !atAt x) = ls.takeWhile (fun x => !atAt x) := by
  induction ls with
  | nil => rfl
  | cons l rest ih =>
    cases hp : parseHeader l with
    | some hd =>
      have hat : atAt l = true := parseHeader_atAt hp
      simp [fixLines, hp, List.takeWhile_cons, atAt_mkHeader, hat]
    | none =>
      cases hat : atAt l with
      | true => simp [fixLines, hp, List.takeWhile_cons, hat]
      | false => simp [fixLines, hp, List.takeWhile_cons, hat, ih]

theorem fixLines_output_headers (ls : List Str) :
    ∀ (i : Nat) (l : Str) (rest : List Str) (hd : HeaderInfo),
      (fixLines ls).drop i = l :: rest → parseHeader l = some hd →
      hd.oldCnt = some (ctxCount (rest.takeWhile (fun x => !atAt x)) +
        remCount (rest.takeWhile (fun x => !atAt x))) ∧
      hd.newCnt = some (ctxCount (rest.takeWhile (fun x => !atAt x)) +
        addCount (rest.takeWhile (fun x => !atAt x))) := by
  induction ls with
  | nil =>
    intro i l rest hd hdrop
    simp [fixLines] at hdrop
  | cons l0 rest0 ih =>
    intro i l rest hd hdrop hparse
    cases i with
    | zero =>
      cases hp : parseHeader l0 with
      | some hd0 =>
        simp only [fixLines, hp, List.drop_zero, List.cons.injEq] at hdrop
        obtain ⟨rfl, rfl⟩ := hdrop
        rw [parseHeader_mkHeader] at hparse
        rw [Option.some_inj] at hparse
        subst hparse
        rw [countHunkLoop_eq_counts rest0]
        constructor
        · simp [fixLines_takeWhile, Nat.add_comm]
        · simp [fixLines_takeWhile, Nat.add_comm]
      | none =>
        simp only [fixLines, hp, List.drop_zero, List.cons.injEq] at hdrop
        obtain ⟨rfl, rfl⟩ := hdrop
        rw [hp] at hparse
        exact absurd hparse (by simp)
    | succ i2 =>
      cases hp : parseHeader l0 <;>
        simp only [fixLines, hp, List.drop_succ_cons] at hdrop <;>
        exact ih i2 l rest hd hdrop hparse

/-! ## Lemmas for the round-trip theorem -/

theorem atAt_cons_false {c : Char} (cs : Str) (h : c ≠ '@') : atAt (c :: cs) = false := by
  unfold atAt
  split
  · rename_i heq
    injection heq with h1 h2
    exact absurd h1 h
  · rfl

theorem validLine_not_atAt {l : Str} (h : isValidBodyLine l = true) : atAt l = false := by
  cases l with
  | nil => rfl
  | cons c cs =>
    by_cases hc : c = '@'
    · subst hc
      have h1 : isRemLine ('@' :: cs) = false := isRemLine_cons_false cs (by decide)
      have h2 : isAddLine ('@' :: cs) = false := isAddLine_cons_false cs (by decide)
      have h3 : isCtxLine ('@' :: cs) = false := isCtxLine_cons_false cs (by decide)
      simp [isValidBodyLine, h1, h2, h3] at h
    · exact atAt_cons_false cs hc

theorem parseHeader_of_not_atAt {l : Str} (h : atAt l = false) : parseHeader l = none := by
  cases hp : parseHeader l with
  | none => rfl
  | some hd =>
    rw [parseHeader_atAt hp] at h
    simp at h

theorem fixLines_append_valid (body tl : List Str) (h : ∀ l ∈ body, atAt l = false) :
    fixLines (body ++ tl) = body ++ fixLines tl := by
  induction body with
  | nil => simp
  | cons l b ih =>
    have hp : parseHeader l = none := parseHeader_of_not_atAt (h l (by simp))
    simp only [List.cons_append, fixLines, hp]
    rw [List.append_eq, ih (fun x hx => h x (by simp [hx]))]

theorem takeWhile_notAtAt_struct (body tl : List Str)
    (hb : ∀ l ∈ body, atAt l = false)
    (ht : tl = [] ∨ ∃ h2 t2, tl = h2 :: t2 ∧ atAt h2 = true) :
    (body ++ tl).takeWhile (fun x => !atAt x) = body := by
  have hall : ∀ l ∈ body, (fun x => !atAt x) l = true := by
    intro l hl
    simp [hb l hl]
  rw [takeWhile_append_all body tl hall]
  rcases ht with rfl | ⟨h2, t2, rfl, hat⟩
  · simp
  · rw [List.takeWhile_cons_of_neg (by simp [hat])]
    simp

theorem countHunkLoop_struct (body tl : List Str)
    (hb : ∀ l ∈ body, atAt l = false)
    (ht : tl = [] ∨ ∃ h2 t2, tl = h2 :: t2 ∧ atAt h2 = true) :
    countHunkLoop (body ++ tl) =
      (ctxCount body + remCount body, ctxCount body + addCount body) := by
  rw [countHunkLoop_eq_counts, takeWhile_notAtAt_struct body tl hb ht]

theorem chunksAux_nil_of_empty {ls : List Str} (h : chunksAux ls = ([], [])) : ls = [] := by
  cases ls with
  | nil => rfl
  | cons l rest =>
    exfalso
    simp only [chunksAux] at h
    split at h
    · simp at h
    · simp at h

theorem chunksAux_cons_inv {ls : List Str} {hl : Str} {body : List Str}
    {cs : List (Str × List Str)} (h : chunksAux ls = ([], (hl, body) :: cs)) :
    ∃ rest, ls = hl :: rest ∧ atAt hl = true ∧ chunksAux rest = (body, cs) := by
  cases ls with
  | nil => simp [chunksAux] at h
  | cons l rest =>
    simp only [chunksAux] at h
    split at h
    · rename_i hat
      rw [Prod.mk.injEq, List.cons.injEq, Prod.mk.injEq] at h
      obtain ⟨-, ⟨h1, h2⟩, h3⟩ := h
      subst h1
      exact ⟨rest, rfl, hat, by rw [Prod.ext_iff]; exact ⟨h2, h3⟩⟩
    · rw [Prod.mk.injEq] at h
      simp at h

theorem chunksAux_decomp : ∀ (rest : List Str) (pre : List Str)
    (cs : List (Str × List Str)), chunksAux rest = (pre, cs) →
    ∃ rest2, rest = pre ++ rest2 ∧ chunksAux rest2 = ([], cs) ∧
      ∀ l ∈ pre, atAt l = false := by
  intro rest
  induction rest with
  | nil =>
    intro pre cs h
    simp only [chunksAux, Prod.mk.injEq] at h
    exact ⟨[], by simp [h.1.symm], by simp [chunksAux, h.2.symm], by simp [h.1.symm]⟩
  | cons l t ih =>
    intro pre cs h
    rcases hpc : chunksAux t with ⟨p0, c0⟩
    simp only [chunksAux, hpc] at h
    split at h
    · rename_i hat
      rw [Prod.mk.injEq] at h
      obtain ⟨h1, h2⟩ := h
      refine ⟨l :: t, by rw [← h1]; rfl, ?_, by rw [← h1]; simp⟩
      simp only [chunksAux, hpc, hat, if_true]
      rw [h2]
    · rename_i hat
      rw [Prod.mk.injEq] at h
      obtain ⟨h1, h2⟩ := h
      obtain ⟨rest2, ht, hc, hpre⟩ := ih p0 c0 hpc
      refine ⟨rest2, ?_, ?_, ?_⟩
      · rw [← h1, List.cons_append, ← ht]
      · rw [← h2]
        exact hc
      · intro x hx
        rw [← h1] at hx
        rcases List.mem_cons.mp hx with rfl | hx2
        · simpa using hat
        · exact hpre x hx2

theorem takeBody_exact : ∀ (body tl : List Str) (oT nT oldC newC : Nat),
    validBody body = true →
    oT + remCount body + ctxCount body = oldC →
    nT + addCount body + ctxCount body = newC →
    takeBody oldC newC (body ++ tl) oT nT = some (body, tl) := by
  intro body
  induction body with
  | nil =>
    intro tl oT nT oldC newC hv h1 h2
    simp only [remCount, ctxCount, addCount, List.filter_nil, List.length_nil] at h1 h2
    unfold takeBody
    rw [if_pos (by omega)]
    simp
  | cons l b ih =>
    intro tl oT nT oldC newC hv h1 h2
    rw [validBody, List.all_cons, Bool.and_eq_true] at hv
    obtain ⟨hvl, hvb⟩ := hv
    simp only [remCount, ctxCount, addCount, List.filter_cons] at h1 h2
    unfold takeBody
    rcases lineClassify l with ⟨c1, c2, c3⟩ | ⟨c1, c2, c3⟩ | ⟨c1, c2, c3⟩ | ⟨c1, c2, c3⟩
    · simp only [c1, c2, c3] at h1 h2
      simp at h1 h2
      rw [if_neg (by omega)]
      simp only [List.cons_append, c1, if_true]
      rw [ih tl (oT + 1) nT oldC newC hvb (by simp only [remCount, ctxCount, addCount]; omega) (by simp only [remCount, ctxCount, addCount]; omega)]
      rfl
    · simp only [c1, c2, c3] at h1 h2
      simp at h1 h2
      rw [if_neg (by omega)]
      simp only [List.cons_append, c1, c2, if_true, if_false, Bool.false_eq_true]
      rw [ih tl oT (nT + 1) oldC newC hvb (by simp only [remCount, ctxCount, addCount]; omega) (by simp only [remCount, ctxCount, addCount]; omega)]
      rfl
    · simp only [c1, c2, c3] at h1 h2
      simp at h1 h2
      rw [if_neg (by omega)]
      simp only [List.cons_append, c1, c2, c3, if_true, if_false, Bool.false_eq_true]
      rw [ih tl (oT + 1) (nT + 1) oldC newC hvb (by simp only [remCount, ctxCount, addCount]; omega) (by simp only [remCount, ctxCount, addCount]; omega)]
      rfl
    · simp [isValidBodyLine, c1, c2, c3] at hvl

theorem parseByCountsAux_nil (f : Nat) : parseByCountsAux f [] = some [] := by
  cases f <;> rfl

theorem chunksAux_tail_shape {rest2 : List Str} {cs : List (Str × List Str)}
    (h : chunksAux rest2 = ([], cs)) :
    rest2 = [] ∨ ∃ h2 t2, rest2 = h2 :: t2 ∧ atAt h2 = true := by
  cases cs with
  | nil => exact Or.inl (chunksAux_nil_of_empty h)
  | cons c2 cs2 =>
    rcases c2 with ⟨hl2, body2⟩
    obtain ⟨t, ht, hat, -⟩ := chunksAux_cons_inv h
    exact Or.inr ⟨hl2, t, ht, hat⟩

theorem parseByCountsAux_fixLines : ∀ (fuel : Nat) (ls : List Str) (hunks : List RawHunk),
    ls.length ≤ fuel → parseStructural ls = some hunks →
    parseByCountsAux fuel (fixLines ls) = some hunks := by
  intro fuel
  induction fuel with
  | zero =>
    intro ls hunks hlen hp
    have hnil : ls = [] := List.length_eq_zero.mp (by omega)
    subst hnil
    simp [parseStructural, chunksAux] at hp
  | succ f ih =>
    intro ls hunks hlen hp
    unfold parseStructural at hp
    split at hp
    case h_2 => exact absurd hp (by simp)
    rename_i c cs heq
    rcases c with ⟨hl, body⟩
    obtain ⟨rest, hls, hat, hrest⟩ := chunksAux_cons_inv heq
    subst hls
    obtain ⟨rest2, hre, hc2, hbody⟩ := chunksAux_decomp rest body cs hrest
    subst hre
    unfold parseChunks at hp
    split at hp
    case h_1 => exact absurd hp (by simp)
    rename_i hd heq2
    split at hp
    case isFalse => exact absurd hp (by simp)
    rename_i hvb
    rw [Option.map_eq_some'] at hp
    obtain ⟨hs2, hcs, hhunks⟩ := hp
    have htl := chunksAux_tail_shape hc2
    have h1 : fixLines (hl :: (body ++ rest2)) =
        mkHeader hd.oldStart (ctxCount body + remCount body) hd.newStart
          (ctxCount body + addCount body) hd.suffix :: (body ++ fixLines rest2) := by
      simp only [fixLines, heq2]
      rw [countHunkLoop_struct body rest2 hbody htl, fixLines_append_valid body rest2 hbody]
    rw [h1]
    have hvalid : ∀ l ∈ body, atAt l = false := hbody
    unfold parseByCountsAux
    rw [parseHeader_mkHeader]
    simp only [Option.getD_some]
    rw [takeBody_exact body (fixLines rest2) 0 0 _ _ hvb (by omega) (by omega)]
    have htail : parseByCountsAux f (fixLines rest2) = some hs2 := by
      cases cs with
      | nil =>
        have hr2 : rest2 = [] := chunksAux_nil_of_empty hc2
        subst hr2
        have : hs2 = [] := by
          simp only [parseChunks, Option.some_inj] at hcs
          exact hcs.symm
        subst this
        exact parseByCountsAux_nil f
      | cons c2 cs2 =>
        apply ih rest2 hs2
        · have := List.length_append body rest2
          simp only [List.length_cons, List.length_append] at hlen
          omega
        · unfold parseStructural
          rw [hc2]
          exact hcs
    simp only [htail]
    rw [hhunks]

theorem fuzzMatchAux_refl : ∀ (tagged : List (Bool × Str)) (i : Nat),
    fuzzMatchAux tagged (tagged.map (·.2)) i = some [] := by
  intro tagged
  induction tagged with
  | nil => intro i; rfl
  | cons t ts ih =>
    intro i
    rcases t with ⟨tag, s⟩
    simp [fuzzMatchAux, ih]

theorem fuzzMatch_exact (tagged : List (Bool × Str)) (fuzz : Nat) :
    fuzzMatch tagged (tagged.map (·.2)) fuzz = true := by
  unfold fuzzMatch
  rw [fuzzMatchAux_refl]
  simp

theorem applyHunks_describes : ∀ (hs : List RawHunk) (A B C : List Str) (base : Nat)
    (offset : Int) (fuzz : Nat),
    describesB base A hs B = true →
    (base : Int) - 1 + offset = C.length →
    applyHunks fuzz (C ++ A) hs offset = some (C ++ B) := by
  intro hs
  induction hs with
  | nil =>
    intro A B C base offset fuzz hd hoff
    unfold describesB at hd
    rw [beq_iff_eq] at hd
    rw [hd]
    rfl
  | cons h rest ih =>
    intro A B C base offset fuzz hd hoff
    unfold describesB at hd
    simp only [Bool.and_eq_true, decide_eq_true_eq, beq_iff_eq] at hd
    obtain ⟨⟨⟨⟨⟨hbase, hlen⟩, hold⟩, hpre⟩, hnew⟩, hrec⟩ := hd
    have hpos : (h.oldStart : Int) - 1 + offset = ((C.length + (h.oldStart - base) : Nat) : Int) := by
      push_cast
      omega
    have htn : ((h.oldStart : Int) - 1 + offset).toNat = C.length + (h.oldStart - base) := by
      rw [hpos]
      omega
    have hlen2 : (hunkOldTagged h.body).length = (hunkOldLines h.body).length := by
      simp [hunkOldLines]
    have hslice : ((C ++ A).drop (C.length + (h.oldStart - base))).take
        (hunkOldLines h.body).length = hunkOldLines h.body := by
      rw [List.drop_append (h.oldStart - base), hold]
    unfold applyHunks
    rw [if_pos]
    · rw [htn, hlen2]
      have hdrop2 : C.length + (h.oldStart - base) + (hunkOldLines h.body).length =
          C.length + ((h.oldStart - base) + (hunkOldLines h.body).length) := by omega
      rw [hdrop2, List.take_append (h.oldStart - base), List.drop_append _]
      have hres := ih (A.drop ((h.oldStart - base) + (hunkOldLines h.body).length))
        ((B.drop (h.oldStart - base)).drop (hunkNewLines h.body).length)
        ((C ++ A.take (h.oldStart - base)) ++ hunkNewLines h.body)
        (h.oldStart + (hunkOldLines h.body).length)
        (offset + (hunkNewLines h.body).length - (hunkOldLines h.body).length) fuzz hrec ?hoff2
      case hoff2 =>
        have hkA : h.oldStart - base ≤ A.length := by omega
        simp only [List.length_append, List.length_take, Nat.min_eq_left hkA]
        push_cast
        omega
      rw [hres]
      have hB : B = A.take (h.oldStart - base) ++ (hunkNewLines h.body ++
          (B.drop (h.oldStart - base)).drop (hunkNewLines h.body).length) := by
        conv_lhs => rw [← List.take_append_drop (h.oldStart - base) B]
        rw [hpre]
        congr 1
        conv_lhs => rw [← List.take_append_drop ((hunkNewLines h.body).length)
          (B.drop (h.oldStart - base))]
        rw [hnew]
      conv_rhs => rw [hB]
      simp [List.append_assoc]
    · refine ⟨?_, ?_, ?_⟩
      · rw [hpos]
        exact Int.natCast_nonneg _
      · rw [htn, hlen2]
        simp only [List.length_append]
        omega
      · rw [htn, hlen2, hslice]
        exact fuzzMatch_exact _ fuzz

theorem atAt_shape {l : Str} (h : atAt l = true) : ∃ u, l = '@' :: '@' :: u := by
  unfold atAt at h
  split at h
  · rename_i u
    exact ⟨u, rfl⟩
  · simp at h

theorem parseStructural_first_line {ls : List Str} {hunks : List RawHunk}
    (h : parseStructural ls = some hunks) : ∃ hl t, ls = hl :: t ∧ atAt hl = true := by
  unfold parseStructural at h
  split at h
  case h_2 => exact absurd h (by simp)
  rename_i c cs heq
  rcases c with ⟨hl, body⟩
  obtain ⟨rest, hls, hat, -⟩ := chunksAux_cons_inv heq
  exact ⟨hl, rest, hls, hat⟩

theorem jsTrim_ne_nil_atAt {p : Str} {rest : Str} (hp : p = '@' :: '@' :: rest) :
    ¬ jsTrim p = [] := by
  intro h
  rw [jsTrim_eq_nil_iff] at h
  have h2 := h '@' (by rw [hp]; simp)
  simp [isJsSpace] at h2

theorem containsSub_atAt (rest : Str) : containsSub (str "@@") ('@' :: '@' :: rest) = true := by
  simp [containsSub, str, List.isPrefixOf]

theorem applyPatchToScript_roundtrip_aux (A B p : Str) (opts : PatchOptions)
    (hunks : List RawHunk)
    (hp : parseStructural (splitOnNl p) = some hunks)
    (hd : describesB 1 (splitOnNl A) hunks (splitOnNl B) = true) :
    applyPatchToScript A p opts =
      { success := true, script := some B, appliedPatch := some (fixPatchHeaders p) } := by
  obtain ⟨hl, t, hsplit, hat⟩ := parseStructural_first_line hp
  obtain ⟨u, hu⟩ := atAt_shape hat
  obtain ⟨prest, hpr⟩ : ∃ rest, p = '@' :: '@' :: rest := by
    have hj : joinNl (splitOnNl p) = p := joinNl_splitOnNl p
    rw [hsplit, hu] at hj
    cases t with
    | nil => exact ⟨u, by rw [← hj]; rfl⟩
    | cons t0 ts => exact ⟨u ++ '\n' :: joinNl (t0 :: ts), by rw [← hj]; rfl⟩
  have hlib : applyPatchLib A (fixPatchHeaders p) (opts.fuzzFactor.getD 2) = .ok B := by
    unfold applyPatchLib
    dsimp only
    rw [splitOnNl_fixPatchHeaders, fixLines_length]
    rw [parseByCountsAux_fixLines _ _ _ (le_refl _) hp]
    dsimp only
    have happ : applyHunks (opts.fuzzFactor.getD 2) (splitOnNl A) hunks 0 = some (splitOnNl B) := by
      have h2 := applyHunks_describes hunks (splitOnNl A) (splitOnNl B) [] 1 0
        (opts.fuzzFactor.getD 2) hd (by simp)
      simpa using h2
    simp only [happ, joinNl_splitOnNl]
  unfold applyPatchToScript applyPatchToScriptWith
  dsimp only
  rw [if_neg (jsTrim_ne_nil_atAt hpr)]
  have hcs : containsSub (str "@@") p = true := by
    rw [hpr]
    exact containsSub_atAt prest
  rw [if_neg (by simp [hcs])]
  simp only [hlib]

/-! ## Lemmas for the size gate and the string editor -/

theorem shouldAllowSetScript_iff (s : Str) (m : Nat) :
    shouldAllowSetScript s m = true ↔
      (isWhitespaceOnly s = true ∨ (splitOnNl s).length ≤ m) := by
  unfold shouldAllowSetScript isWhitespaceOnly
  by_cases h : jsTrim s = []
  · rw [if_pos h]
    simp only [true_iff]
    left
    rw [List.all_eq_true]
    exact jsTrim_eq_nil_iff s |>.mp h
  · rw [if_neg h]
    simp only [decide_eq_true_eq]
    constructor
    · exact Or.inr
    · intro h2
      rcases h2 with h2 | h2
      · exfalso
        apply h
        rw [jsTrim_eq_nil_iff]
        rw [List.all_eq_true] at h2
        exact h2
      · exact h2

theorem splitAux_length (c0 : Char) (sep1 : Str) :
    ∀ (fuel : Nat) (s acc : Str), s.length < fuel →
    (splitAux c0 sep1 fuel s acc).length = countOccAux c0 sep1 fuel s + 1 := by
  intro fuel
  induction fuel with
  | zero => intro s acc h; omega
  | succ f ih =>
    intro s acc h
    cases s with
    | nil => simp [splitAux, countOccAux]
    | cons c rest =>
      simp only [splitAux, countOccAux]
      by_cases hpre : (c0 :: sep1).isPrefixOf (c :: rest) = true
      · rw [if_pos hpre, if_pos hpre]
        simp only [List.length_cons]
        rw [ih (rest.drop sep1.length) []
          (by simp only [List.length_drop, List.length_cons] at h ⊢; omega)]
        omega
      · rw [if_neg hpre, if_neg hpre]
        exact ih rest (c :: acc) (by simp only [List.length_cons] at h; omega)

theorem jsSplit_length (old s : Str) (h : old ≠ []) :
    (jsSplit old s).length = countOccurrences old s + 1 := by
  cases old with
  | nil => exact absurd rfl h
  | cons c0 sep1 =>
    unfold jsSplit countOccurrences
    exact splitAux_length c0 sep1 (s.length + 1) s [] (by omega)

theorem splitAux_ne_nil (c0 : Char) (sep1 : Str) :
    ∀ (fuel : Nat) (s acc : Str), splitAux c0 sep1 fuel s acc ≠ [] := by
  intro fuel
  induction fuel with
  | zero => intro s acc; simp [splitAux]
  | succ f ih =>
    intro s acc
    cases s with
    | nil => simp [splitAux]
    | cons c rest =>
      simp only [splitAux]
      by_cases hpre : (c0 :: sep1).isPrefixOf (c :: rest) = true
      · rw [if_pos hpre]
        simp
      · rw [if_neg hpre]
        exact ih rest (c :: acc)

theorem jsJoin_cons_ne (sep x : Str) (xs : List Str) (h : xs ≠ []) :
    jsJoin sep (x :: xs) = x ++ sep ++ jsJoin sep xs := by
  cases xs with
  | nil => exact absurd rfl h
  | cons y ys => rfl

theorem splitAux_join (c0 : Char) (sep1 new : Str) :
    ∀ (fuel : Nat) (s acc : Str), s.length < fuel →
    jsJoin new (splitAux c0 sep1 fuel s acc) =
      acc.reverse ++ replaceAllAux c0 sep1 new fuel s := by
  intro fuel
  induction fuel with
  | zero => intro s acc h; omega
  | succ f ih =>
    intro s acc h
    cases s with
    | nil => simp [splitAux, replaceAllAux, jsJoin]
    | cons c rest =>
      simp only [splitAux, replaceAllAux]
      by_cases hpre : (c0 :: sep1).isPrefixOf (c :: rest) = true
      · rw [if_pos hpre, if_pos hpre]
        rw [jsJoin_cons_ne new _ _ (splitAux_ne_nil c0 sep1 f _ [])]
        rw [ih (rest.drop sep1.length) []
          (by simp only [List.length_drop, List.length_cons] at h ⊢; omega)]
        simp [List.append_assoc]
      · rw [if_neg hpre, if_neg hpre]
        rw [ih rest (c :: acc) (by simp only [List.length_cons] at h; omega)]
        simp

theorem jsJoin_jsSplit (old new s : Str) (h : old ≠ []) :
    jsJoin new (jsSplit old s) = replaceAllSpec old new s := by
  cases old with
  | nil => exact absurd rfl h
  | cons c0 sep1 =>
    unfold jsSplit replaceAllSpec
    rw [splitAux_join c0 sep1 new (s.length + 1) s [] (by omega)]
    rfl

theorem editStringInScript_spec (script oldString newString : Str)
    (hne : oldString ≠ []) (hocc : containsSub oldString script = true) :
    ((editStringInScript script oldString newString false).success = false ↔
      1 < countOccurrences oldString script) ∧
    (1 < countOccurrences oldString script →
      (editStringInScript script oldString newString false).error =
        some (str "oldString found " ++ natChars (countOccurrences oldString script) ++
          str " times - use replaceAll to replace all occurrences, or provide more context to make it unique")) ∧
    (editStringInScript script oldString newString true).success = true ∧
    (editStringInScript script oldString newString true).script =
      some (replaceAllSpec oldString newString script) := by
  unfold editStringInScript
  rw [if_neg (by simp [hocc])]
  have hlen := jsSplit_length oldString script hne
  have hoccval : (jsSplit oldString script).length - 1 = countOccurrences oldString script := by
    omega
  refine ⟨?_, ?_, ?_, ?_⟩
  · by_cases hgt : 1 < countOccurrences oldString script
    · rw [if_pos (by rw [hoccval]; exact ⟨hgt, rfl⟩)]
      simpa using hgt
    · rw [if_neg (by rw [hoccval]; intro hcon; exact hgt hcon.1)]
      simpa using hgt
  · intro hgt
    rw [if_pos (by rw [hoccval]; exact ⟨hgt, rfl⟩), hoccval]
  · simp [hocc]
  · simp [hocc, jsJoin_jsSplit oldString newString script hne]

/-! ## Lemmas for the line operations of `editScript` -/

theorem applyEditsLoop_ok_iff : ∀ (es : List LineEdit) (lines : List Str),
    (∃ out, applyEditsLoop lines es = .ok out) ↔
      ∀ e ∈ es, 1 ≤ e.line ∧ e.line ≤ (lines.length : Int) := by
  intro es
  induction es with
  | nil =>
    intro lines
    simp [applyEditsLoop]
  | cons e rest ih =>
    intro lines
    unfold applyEditsLoop
    by_cases hb : e.line < 1 ∨ (lines.length : Int) < e.line
    · rw [if_pos hb]
      constructor
      · intro ⟨out, hout⟩
        simp at hout
      · intro hall
        have := hall e (by simp)
        omega
    · rw [if_neg hb]
      rw [ih (lines.set (e.line - 1).toNat e.content)]
      simp only [List.length_set, List.mem_cons]
      constructor
      · intro hall x hx
        rcases hx with rfl | hx
        · omega
        · exact hall x hx
      · intro hall x hx
        exact hall x (Or.inr hx)

theorem keepFrom_nil_ds (pos : Int) (ls : List Str) : keepFrom [] pos ls = ls := by
  induction ls generalizing pos with
  | nil => rfl
  | cons l t ih => simp [keepFrom, ih]

theorem keepFrom_all_lt (ds : List Int) : ∀ (pos : Int) (ls : List Str),
    (∀ d ∈ ds, d < pos) → keepFrom ds pos ls = ls := by
  intro pos ls
  induction ls generalizing pos with
  | nil => intro h; rfl
  | cons l t ih =>
    intro h
    unfold keepFrom
    rw [if_neg (fun hmem => absurd (h pos hmem) (by omega))]
    rw [ih (pos + 1) (fun d hd => by have := h d hd; omega)]

theorem keepFrom_congr_mem (ds ds2 : List Int) (hm : ∀ x, x ∈ ds ↔ x ∈ ds2) :
    ∀ (pos : Int) (ls : List Str), keepFrom ds pos ls = keepFrom ds2 pos ls := by
  intro pos ls
  induction ls generalizing pos with
  | nil => rfl
  | cons l t ih =>
    unfold keepFrom
    by_cases h : pos ∈ ds
    · rw [if_pos h, if_pos ((hm pos).mp h), ih]
    · rw [if_neg h, if_neg (fun h2 => h ((hm pos).mpr h2)), ih]

theorem keepFrom_erase : ∀ (ls : List Str) (pos d : Int) (S : List Int),
    (∀ s ∈ S, s < d) → pos ≤ d → d ≤ pos + ls.length - 1 →
    keepFrom S pos (ls.take (d - pos).toNat ++ ls.drop (d - pos + 1).toNat) =
      keepFrom (d :: S) pos ls := by
  intro ls
  induction ls with
  | nil =>
    intro pos d S hS hpd hdb
    simp at hdb
    omega
  | cons l t ih =>
    intro pos d S hS hpd hdb
    by_cases hpd2 : pos = d
    · subst hpd2
      have h0 : (pos - pos).toNat = 0 := by omega
      have h1 : (pos - pos + 1).toNat = 1 := by omega
      rw [h0, h1]
      simp only [List.take_zero, List.drop_one, List.nil_append, List.tail_cons]
      rw [keepFrom_all_lt S pos t hS]
      unfold keepFrom
      rw [if_pos (by simp)]
      rw [keepFrom_all_lt (pos :: S) (pos + 1) t
        (by intro x hx; rcases List.mem_cons.mp hx with rfl | hx2
            · omega
            · have := hS x hx2; omega)]
    · have hlt : pos < d := by omega
      have htk : (d - pos).toNat = (d - (pos + 1)).toNat + 1 := by omega
      have hdr : (d - pos + 1).toNat = (d - (pos + 1) + 1).toNat + 1 := by omega
      rw [htk, hdr]
      simp only [List.take_succ_cons, List.drop_succ_cons, List.cons_append]
      unfold keepFrom
      have hmem : pos ∈ d :: S ↔ pos ∈ S := by
        simp only [List.mem_cons]
        constructor
        · intro h
          rcases h with rfl | h
          · omega
          · exact h
        · exact Or.inr
      by_cases hp : pos ∈ S
      · rw [if_pos hp, if_pos (hmem.mpr hp)]
        exact ih (pos + 1) d S hS (by omega) (by simp at hdb ⊢; omega)
      · rw [if_neg hp, if_neg (fun h2 => hp (hmem.mp h2))]
        rw [ih (pos + 1) d S hS (by omega) (by simp at hdb ⊢; omega)]

theorem deleteLoop_sorted_ok : ∀ (ds : List Int) (lines : List Str),
    List.Pairwise (· > ·) ds → (∀ d ∈ ds, 1 ≤ d ∧ d ≤ (lines.length : Int)) →
    deleteLoop lines ds = .ok (keepFrom ds 1 lines) := by
  intro ds
  induction ds with
  | nil =>
    intro lines _ _
    rw [keepFrom_nil_ds]
    rfl
  | cons d rest ih =>
    intro lines hpw hrange
    have hd := hrange d (by simp)
    unfold deleteLoop
    rw [if_neg (by omega)]
    have hlen : ((lines.take (d - 1).toNat ++ lines.drop d.toNat).length : Int) =
        (lines.length : Int) - 1 := by
      simp only [List.length_append, List.length_take, List.length_drop]
      have h1 : (d - 1).toNat ≤ lines.length := by omega
      push_cast [Nat.min_eq_left h1]
      omega
    rw [ih (lines.take (d - 1).toNat ++ lines.drop d.toNat) (List.Pairwise.sublist
      (List.sublist_cons_self d rest) hpw)]
    · congr 1
      have hdrop : d.toNat = (d - 1 + 1).toNat := by omega
      have := keepFrom_erase lines 1 d rest
        (by intro s hs; exact List.rel_of_pairwise_cons hpw hs) (by omega) (by omega)
      rw [hdrop]
      rw [show d - 1 = d - (1 : Int) from rfl] at this
      exact this
    · intro x hx
      have hxr := hrange x (by simp [hx])
      have hxd : x < d := List.rel_of_pairwise_cons hpw hx
      omega

theorem deleteLoop_ok_ranges : ∀ (ds : List Int) (lines : List Str) (out : List Str),
    deleteLoop lines ds = .ok out → ∀ d ∈ ds, 1 ≤ d ∧ d ≤ (lines.length : Int) := by
  intro ds
  induction ds with
  | nil => simp
  | cons d rest ih =>
    intro lines out hok x hx
    unfold deleteLoop at hok
    by_cases hb : d < 1 ∨ (lines.length : Int) < d
    · rw [if_pos hb] at hok
      simp at hok
    · rw [if_neg hb] at hok
      rcases List.mem_cons.mp hx with rfl | hx2
      · omega
      · obtain ⟨h1, h2⟩ := ih _ _ hok x hx2
        have hlen2 : (lines.take (d - 1).toNat ++ lines.drop d.toNat).length ≤
            lines.length := by
          simp only [List.length_append, List.length_take, List.length_drop]
          omega
        omega

theorem editScriptCore_deleteLines_eq (lines : List Str) (ds : List Int) :
    editScriptCore lines (.deleteLines ds) =
      deleteLoop lines ((ds.insertionSort (· ≤ ·)).reverse) := rfl

theorem deleteLines_spec (lines : List Str) (ds : List Int) (hnd : ds.Nodup) :
    ((∃ out, editScriptCore lines (.deleteLines ds) = .ok out) ↔
      ∀ d ∈ ds, 1 ≤ d ∧ d ≤ (lines.length : Int)) ∧
    (∀ out, editScriptCore lines (.deleteLines ds) = .ok out →
      out = keepFrom ds 1 lines) := by
  have hperm : ((ds.insertionSort (· ≤ ·)).reverse).Perm ds :=
    (List.reverse_perm _).trans (List.perm_insertionSort _ ds)
  have hsorted : List.Pairwise (· ≥ ·) ((ds.insertionSort (· ≤ ·)).reverse) := by
    rw [List.pairwise_reverse]
    exact List.sorted_insertionSort (· ≤ ·) ds
  have hnd2 : ((ds.insertionSort (· ≤ ·)).reverse).Nodup := hperm.symm.nodup hnd
  have hgt : List.Pairwise (· > ·) ((ds.insertionSort (· ≤ ·)).reverse) := by
    have hand := hsorted.and hnd2
    exact hand.imp (fun hab => by omega)
  rw [editScriptCore_deleteLines_eq]
  constructor
  · constructor
    · rintro ⟨out, hout⟩ d hd
      exact deleteLoop_ok_ranges _ lines out hout d (hperm.mem_iff.mpr hd)
    · intro hall
      exact ⟨_, deleteLoop_sorted_ok _ lines hgt (fun d hd => hall d (hperm.mem_iff.mp hd))⟩
  · intro out hout
    have hranges := deleteLoop_ok_ranges _ lines out hout
    rw [deleteLoop_sorted_ok _ lines hgt hranges] at hout
    have hout2 : keepFrom ((ds.insertionSort (· ≤ ·)).reverse) 1 lines = out := by
      injection hout
    rw [← hout2]
    exact keepFrom_congr_mem _ _ (fun x => hperm.mem_iff) 1 lines

theorem replaceRange_ok_iff (lines : List Str) (r : RangeSpec) :
    (∃ out, editScriptCore lines (.replaceRange r) = .ok out) ↔
      1 ≤ r.startLine ∧ r.startLine ≤ r.endLine ∧ r.endLine ≤ (lines.length : Int) := by
  unfold editScriptCore
  dsimp only
  by_cases hb : r.startLine < 1 ∨ r.endLine < r.startLine ∨ (lines.length : Int) < r.endLine
  · rw [if_pos hb]
    constructor
    · rintro ⟨out, hout⟩
      simp at hout
    · intro h
      omega
  · rw [if_neg hb]
    push_neg at hb
    constructor
    · intro _
      omega
    · intro _
      exact ⟨_, rfl⟩

theorem insertAfter_ok_iff (lines : List Str) (ins : InsertSpec) :
    (∃ out, editScriptCore lines (.insertAfter ins) = .ok out) ↔
      0 ≤ ins.line ∧ ins.line ≤ (lines.length : Int) := by
  unfold editScriptCore
  dsimp only
  by_cases hb : ins.line < 0 ∨ (lines.length : Int) < ins.line
  · rw [if_pos hb]
    constructor
    · rintro ⟨out, hout⟩
      simp at hout
    · intro h
      omega
  · rw [if_neg hb]
    push_neg at hb
    constructor
    · intro _
      omega
    · intro _
      exact ⟨_, rfl⟩

theorem set_no_newline (lines : List Str) (i : Nat) (content : Str)
    (h : ∀ l ∈ lines, '\n' ∉ l) (hc : '\n' ∉ content) :
    ∀ l ∈ lines.set i content, '\n' ∉ l := by
  intro l hl
  rcases List.mem_or_eq_of_mem_set hl with h1 | h1
  · exact h l h1
  · subst h1
    exact hc

theorem set_ne_nil {lines : List Str} (i : Nat) (content : Str) (h : lines ≠ []) :
    lines.set i content ≠ [] := by
  intro h2
  apply h
  have := List.length_set lines i content
  rw [h2] at this
  exact List.length_eq_zero.mp this.symm

theorem cacheScript_consistent (hashFn : Str → Str) (now : Nat) (cache : CacheMap)
    (m : Str) (cb : Option Str) (s : Str)
    (h : ∀ k e, cache k = some e → entryConsistent hashFn e) :
    ∀ k e, cacheScript hashFn now cache m cb s k = some e → entryConsistent hashFn e := by
  intro k e he
  unfold cacheScript at he
  split at he
  · rw [Option.some_inj] at he
    subst he
    exact ⟨rfl, rfl⟩
  · exact h k e he

theorem getScriptCacheStep_consistent (hashFn : Str → Str) (now : Nat) (cache : CacheMap)
    (m : Str) (cb : Option Str) (resp : FetchResult) (sl : Option Int)
    (h : ∀ k e, cache k = some e → entryConsistent hashFn e) :
    ∀ k e, getScriptCacheStep hashFn now cache m cb resp sl k = some e →
      entryConsistent hashFn e := by
  obtain ⟨rsucc, rscr⟩ := resp
  intro k e he
  unfold getScriptCacheStep at he
  cases rscr with
  | none => exact h k e he
  | some s =>
    dsimp only at he
    by_cases hc : (rsucc && decide (s ≠ []) && !startLineTruthy sl) = true
    · rw [if_pos hc] at he
      exact cacheScript_consistent hashFn now cache m cb s h k e he
    · rw [if_neg hc] at he
      exact h k e he

theorem getScriptCacheStep_fail (hashFn : Str → Str) (now : Nat) (cache : CacheMap)
    (m : Str) (cb : Option Str) (resp : FetchResult) (sl : Option Int)
    (h : resp.success = false ∨ scriptTruthy resp.script = false) :
    getScriptCacheStep hashFn now cache m cb resp sl = cache := by
  obtain ⟨rsucc, rscr⟩ := resp
  unfold getScriptCacheStep
  cases rscr with
  | none => rfl
  | some s =>
    dsimp only
    rw [if_neg]
    intro hcon
    rw [Bool.and_eq_true, Bool.and_eq_true] at hcon
    simp only [scriptTruthy] at h
    rcases h with h | h
    · rw [h] at hcon
      simp at hcon
    · simp only [decide_eq_false_iff_not, Decidable.not_not] at h
      rw [h] at hcon
      simp at hcon

/-! ## Claim theorems -/

/-- C1: for every pair of documents `A` and `B` and every correct unified diff
from `A` to `B` — correctness given by the spec-side structural parse
`parseStructural` (which deliberately ignores the header line counts, so
corrupted counts are allowed) together with `describesB` (the hunks describe
the edit from `A` to `B`) — `applyPatchToScript A diff` succeeds for every
options value and the returned new document equals `B`. -/
theorem claim_C1_round_trip (A B p : Str) (opts : PatchOptions) (hunks : List RawHunk)
    (hparse : parseStructural (splitOnNl p) = some hunks)
    (hdesc : describesB 1 (splitOnNl A) hunks (splitOnNl B) = true) :
    (applyPatchToScript A p opts).success = true ∧
    (applyPatchToScript A p opts).script = some B := by
  rw [applyPatchToScript_roundtrip_aux A B p opts hunks hparse hdesc]
  exact ⟨rfl, rfl⟩

/-- Witness for C1: a one-hunk diff with deliberately corrupted header counts
(`@@ -1,99 +1,42 @@`) applied to a concrete three-line document. -/
theorem claim_C1_witness :
    (applyPatchToScript (str "one\ntwo\nthree")
      (str "@@ -1,99 +1,42 @@\n one\n-two\n+TWO\n three") ⟨none⟩).success = true ∧
    (applyPatchToScript (str "one\ntwo\nthree")
      (str "@@ -1,99 +1,42 @@\n one\n-two\n+TWO\n three") ⟨none⟩).script =
      some (str "one\nTWO\nthree") :=
  claim_C1_round_trip (str "one\ntwo\nthree") (str "one\nTWO\nthree")
    (str "@@ -1,99 +1,42 @@\n one\n-two\n+TWO\n three") ⟨none⟩
    [⟨1, 1, [str " one", str "-two", str "+TWO", str " three"]⟩]
    (by decide) (by decide)

/-- C2: in the output of `fixPatchHeaders`, every line that parses as a hunk
header carries an old count equal to context-plus-removed and a new count
equal to context-plus-added over its body (the following lines up to the next
`"@@"` line), where an empty body line counts as context for both sides. -/
theorem claim_C2_header_counts (p : Str) (i : Nat) (l : Str) (rest : List Str)
    (hd : HeaderInfo)
    (hdrop : (splitOnNl (fixPatchHeaders p)).drop i = l :: rest)
    (hparse : parseHeader l = some hd) :
    hd.oldCnt = some (ctxCount (rest.takeWhile (fun x => !atAt x)) +
      remCount (rest.takeWhile (fun x => !atAt x))) ∧
    hd.newCnt = some (ctxCount (rest.takeWhile (fun x => !atAt x)) +
      addCount (rest.takeWhile (fun x => !atAt x))) := by
  rw [splitOnNl_fixPatchHeaders] at hdrop
  exact fixLines_output_headers (splitOnNl p) i l rest hd hdrop hparse

/-- Witness for C2: the header `@@ -1,999 +1,4 @@` over a body with three
context lines, one removed and one added line is rewritten to
`@@ -1,4 +1,4 @@`, whose counts satisfy the invariant. -/
theorem claim_C2_witness :
    fixPatchHeaders (str "@@ -1,999 +1,4 @@\n x\n-y\n+z\n u\n v") =
      str "@@ -1,4 +1,4 @@\n x\n-y\n+z\n u\n v" ∧
    ((⟨1, some 4, 1, some 4, []⟩ : HeaderInfo).oldCnt =
      some (ctxCount ([str " x", str "-y", str "+z", str " u", str " v"].takeWhile
        (fun x => !atAt x)) +
      remCount ([str " x", str "-y", str "+z", str " u", str " v"].takeWhile
        (fun x => !atAt x))) ∧
    (⟨1, some 4, 1, some 4, []⟩ : HeaderInfo).newCnt =
      some (ctxCount ([str " x", str "-y", str "+z", str " u", str " v"].takeWhile
        (fun x => !atAt x)) +
      addCount ([str " x", str "-y", str "+z", str " u", str " v"].takeWhile
        (fun x => !atAt x)))) :=
  ⟨by decide,
   claim_C2_header_counts (str "@@ -1,999 +1,4 @@\n x\n-y\n+z\n u\n v") 0
     (str "@@ -1,4 +1,4 @@") [str " x", str "-y", str "+z", str " u", str " v"]
     ⟨1, some 4, 1, some 4, []⟩ (by decide) (by decide)⟩

/-- C3: the hunk-header normalizer is idempotent — normalizing twice yields
the same text as normalizing once, for every patch text. -/
theorem claim_C3_idempotent (p : Str) :
    fixPatchHeaders (fixPatchHeaders p) = fixPatchHeaders p :=
  fixPatchHeaders_idem_aux p

/-- C4: `applyPatchToScript` (parameterized by an arbitrary behavior of the
underlying `applyPatch` library, including throwing) always returns a tagged
`PatchResult` and never propagates an exception: an empty or whitespace-only
patch yields a failure, a patch with no `@@` marker yields an invalid-format
failure, a hunk that cannot be located yields a context-mismatch failure
carrying a remediation suggestion, and any exception thrown by the apply step
is caught and returned as a patch-error failure carrying the underlying
message. -/
theorem claim_C4_error_contract (lib : Str → Str → Nat → ApplyOutcome)
    (script patch : Str) (options : PatchOptions) :
    (jsTrim patch = [] →
      (applyPatchToScriptWith lib script patch options).success = false ∧
      (applyPatchToScriptWith lib script patch options).error =
        some (str "Empty patch provided")) ∧
    (jsTrim patch ≠ [] → containsSub (str "@@") patch = false →
      (applyPatchToScriptWith lib script patch options).success = false ∧
      (applyPatchToScriptWith lib script patch options).error =
        some (str "Invalid patch format")) ∧
    (jsTrim patch ≠ [] → containsSub (str "@@") patch = true →
      lib script (fixPatchHeaders patch) (options.fuzzFactor.getD 2) = .noMatch →
      (applyPatchToScriptWith lib script patch options).success = false ∧
      (applyPatchToScriptWith lib script patch options).details =
        some ⟨str "Context mismatch - the script content does not match the patch context",
          some (str "Re-read the script with get_script and regenerate the patch, or increase fuzzFactor")⟩) ∧
    (∀ m, jsTrim patch ≠ [] → containsSub (str "@@") patch = true →
      lib script (fixPatchHeaders patch) (options.fuzzFactor.getD 2) = .thrown m →
      (applyPatchToScriptWith lib script patch options).success = false ∧
      (applyPatchToScriptWith lib script patch options).error =
        some (str "Patch error: " ++ m)) ∧
    (∀ out, jsTrim patch ≠ [] → containsSub (str "@@") patch = true →
      lib script (fixPatchHeaders patch) (options.fuzzFactor.getD 2) = .ok out →
      applyPatchToScriptWith lib script patch options =
        { success := true, script := some out,
          appliedPatch := some (fixPatchHeaders patch) }) := by
  unfold applyPatchToScriptWith
  dsimp only
  refine ⟨?_, ?_, ?_, ?_, ?_⟩
  · intro h
    rw [if_pos h]
    exact ⟨rfl, rfl⟩
  · intro h1 h2
    rw [if_neg h1, if_pos (by simp [h2])]
    exact ⟨rfl, rfl⟩
  · intro h1 h2 h3
    rw [if_neg h1, if_neg (by simp [h2]), h3]
    exact ⟨rfl, rfl⟩
  · intro m h1 h2 h3
    rw [if_neg h1, if_neg (by simp [h2]), h3]
    exact ⟨rfl, rfl⟩
  · intro out h1 h2 h3
    rw [if_neg h1, if_neg (by simp [h2]), h3]

/-- Witness for C4: a throwing library is caught and surfaced as a
patch-error failure carrying the underlying message. -/
theorem claim_C4_witness :
    (applyPatchToScriptWith (fun _ _ _ => ApplyOutcome.thrown (str "boom"))
      (str "doc") (str "@@") ⟨none⟩).error = some (str "Patch error: boom") :=
  ((claim_C4_error_contract (fun _ _ _ => ApplyOutcome.thrown (str "boom"))
    (str "doc") (str "@@") ⟨none⟩).2.2.2.1 (str "boom")
    (by decide) (by decide) rfl).2

/-- Counterexample to C5: with the leading context line mismatching, the
default call (no fuzz supplied) succeeds while an explicit `fuzzFactor = 0`
fails — the default is not fuzz 0. -/
theorem claim_C5_counterexample :
    (applyPatchToScript (str "a\nb\nc") (str "@@ -1,3 +1,3 @@\n X\n-b\n+B\n c")
      ⟨none⟩).success = true ∧
    (applyPatchToScript (str "a\nb\nc") (str "@@ -1,3 +1,3 @@\n X\n-b\n+B\n c")
      ⟨some 0⟩).success = false := by decide

/-- C5 amended: when the caller supplies no fuzz value the patch applier uses
fuzz tolerance 2 (the source default `fuzzFactor = 2`): calling without a
fuzzFactor behaves identically to calling with `fuzzFactor = 2`, for every
library behavior. -/
theorem claim_C5_default_fuzz (lib : Str → Str → Nat → ApplyOutcome)
    (script patch : Str) :
    applyPatchToScriptWith lib script patch ⟨none⟩ =
      applyPatchToScriptWith lib script patch ⟨some 2⟩ := rfl

/-- Counterexample to C6: when the target string does not occur at all the
call also fails (with a not-found error), although the occurrence count 0 is
not greater than one — so "fails iff the string occurs more than once" is
false as stated. -/
theorem claim_C6_counterexample :
    (editStringInScript (str "abc") (str "x") (str "y") false).success = false ∧
    countOccurrences (str "x") (str "abc") = 0 := by decide

/-- C6 amended: for a nonempty `oldString` that occurs in the document,
`editStringInScript` with `replaceAll = false` fails iff `oldString` occurs
more than once (counting non-overlapping occurrences), the failure message
reports the occurrence count, and with `replaceAll = true` the call succeeds
and every occurrence is replaced. -/
theorem claim_C6_ambiguity_gate (script oldString newString : Str)
    (hne : oldString ≠ []) (hocc : containsSub oldString script = true) :
    ((editStringInScript script oldString newString false).success = false ↔
      1 < countOccurrences oldString script) ∧
    (1 < countOccurrences oldString script →
      (editStringInScript script oldString newString false).error =
        some (str "oldString found " ++ natChars (countOccurrences oldString script) ++
          str " times - use replaceAll to replace all occurrences, or provide more context to make it unique")) ∧
    (editStringInScript script oldString newString true).success = true ∧
    (editStringInScript script oldString newString true).script =
      some (replaceAllSpec oldString newString script) :=
  editStringInScript_spec script oldString newString hne hocc

/-- Witness for C6: a document where "value" occurs twice — replacement
without `replaceAll` fails reporting "found 2 times", with `replaceAll` both
occurrences are replaced. -/
theorem claim_C6_witness :
    (((editStringInScript (str "value + value") (str "value") (str "amount")
        false).success = false ↔
      1 < countOccurrences (str "value") (str "value + value")) ∧
    (1 < countOccurrences (str "value") (str "value + value") →
      (editStringInScript (str "value + value") (str "value") (str "amount")
          false).error =
        some (str "oldString found " ++
          natChars (countOccurrences (str "value") (str "value + value")) ++
          str " times - use replaceAll to replace all occurrences, or provide more context to make it unique")) ∧
    (editStringInScript (str "value + value") (str "value") (str "amount")
      true).success = true ∧
    (editStringInScript (str "value + value") (str "value") (str "amount")
      true).script =
      some (replaceAllSpec (str "value") (str "amount") (str "value + value"))) ∧
    (editStringInScript (str "value + value") (str "value") (str "amount")
      false).error = some (str "oldString found 2 times - use replaceAll to replace all occurrences, or provide more context to make it unique") ∧
    (editStringInScript (str "value + value") (str "value") (str "amount")
      true).script = some (str "amount + amount") :=
  ⟨claim_C6_ambiguity_gate (str "value + value") (str "value") (str "amount")
    (by decide) (by decide), by decide, by decide⟩

/-- C7: over a line array, the four line operations of `editScript` succeed
exactly on in-range inputs and fail on every out-of-range input, with no
off-by-one at the boundaries (1 and `lineCount`; insert-after additionally
accepts 0 meaning the very beginning); deletion validates every supplied
number against the document range and, deleting from highest to lowest,
removes exactly the listed 1-based lines. -/
theorem claim_C7_line_op_bounds (lines : List Str) (es : List LineEdit)
    (r : RangeSpec) (ins : InsertSpec) (ds : List Int) (hnd : ds.Nodup) :
    ((∃ out, editScriptCore lines (.edits es) = .ok out) ↔
      ∀ e ∈ es, 1 ≤ e.line ∧ e.line ≤ (lines.length : Int)) ∧
    ((∃ out, editScriptCore lines (.replaceRange r) = .ok out) ↔
      1 ≤ r.startLine ∧ r.startLine ≤ r.endLine ∧ r.endLine ≤ (lines.length : Int)) ∧
    ((∃ out, editScriptCore lines (.insertAfter ins) = .ok out) ↔
      0 ≤ ins.line ∧ ins.line ≤ (lines.length : Int)) ∧
    ((∃ out, editScriptCore lines (.deleteLines ds) = .ok out) ↔
      ∀ d ∈ ds, 1 ≤ d ∧ d ≤ (lines.length : Int)) ∧
    (∀ out, editScriptCore lines (.deleteLines ds) = .ok out →
      out = keepFrom ds 1 lines) :=
  ⟨applyEditsLoop_ok_iff es lines, replaceRange_ok_iff lines r,
   insertAfter_ok_iff lines ins, (deleteLines_spec lines ds hnd).1,
   (deleteLines_spec lines ds hnd).2⟩

/-- Witness for C7: the bounds characterization instantiated on a concrete
three-line document with concrete operations. -/
theorem claim_C7_witness :
    ((∃ out, editScriptCore [str "a", str "b", str "c"]
        (.edits [⟨2, str "B"⟩]) = .ok out) ↔
      ∀ e ∈ [(⟨2, str "B"⟩ : LineEdit)], 1 ≤ e.line ∧
        e.line ≤ (([str "a", str "b", str "c"] : List Str).length : Int)) ∧
    ((∃ out, editScriptCore [str "a", str "b", str "c"]
        (.replaceRange ⟨1, 2, str "X"⟩) = .ok out) ↔
      1 ≤ (⟨1, 2, str "X"⟩ : RangeSpec).startLine ∧
      (⟨1, 2, str "X"⟩ : RangeSpec).startLine ≤ (⟨1, 2, str "X"⟩ : RangeSpec).endLine ∧
      (⟨1, 2, str "X"⟩ : RangeSpec).endLine ≤
        (([str "a", str "b", str "c"] : List Str).length : Int)) ∧
    ((∃ out, editScriptCore [str "a", str "b", str "c"]
        (.insertAfter ⟨0, str "H"⟩) = .ok out) ↔
      0 ≤ (⟨0, str "H"⟩ : InsertSpec).line ∧
      (⟨0, str "H"⟩ : InsertSpec).line ≤
        (([str "a", str "b", str "c"] : List Str).length : Int)) ∧
    ((∃ out, editScriptCore [str "a", str "b", str "c"]
        (.deleteLines [3, 1]) = .ok out) ↔
      ∀ d ∈ ([3, 1] : List Int), 1 ≤ d ∧
        d ≤ (([str "a", str "b", str "c"] : List Str).length : Int)) ∧
    (∀ out, editScriptCore [str "a", str "b", str "c"]
        (.deleteLines [3, 1]) = .ok out →
      out = keepFrom [3, 1] 1 [str "a", str "b", str "c"]) :=
  claim_C7_line_op_bounds [str "a", str "b", str "c"] [⟨2, str "B"⟩]
    ⟨1, 2, str "X"⟩ ⟨0, str "H"⟩ [3, 1] (by decide)

/-- Counterexample to C8: replacing line 1 of a two-line document with a
content string containing a newline yields a three-line document — the total
line count of the result does not equal the line count of the input for every
content. -/
theorem claim_C8_counterexample :
    fixLineInScript (str "x\ny") 1 (str "a\nb") = .ok (str "a\nb\ny") ∧
    (splitOnNl (str "a\nb\ny")).length = 3 ∧
    (splitOnNl (str "x\ny")).length = 2 := by decide

/-- C8 amended: in-range calls replace exactly the addressed line (the result
is the input line array with that one entry replaced), and when the
replacement content contains no newline the total line count is unchanged;
out-of-range line numbers signal a hard error whose message names the valid
range `1-lineCount`. -/
theorem claim_C8_replace_line (script : Str) (line : Int) (content : Str) :
    ((line < 1 ∨ ((splitOnNl script).length : Int) < line) →
      fixLineInScript script line content = .error (str "Line " ++ intChars line ++
        str " out of range (valid: 1-" ++ natChars (splitOnNl script).length ++ str ")")) ∧
    (1 ≤ line → line ≤ ((splitOnNl script).length : Int) →
      fixLineInScript script line content =
        .ok (joinNl ((splitOnNl script).set (line - 1).toNat content)) ∧
      ('\n' ∉ content →
        splitOnNl (joinNl ((splitOnNl script).set (line - 1).toNat content)) =
          (splitOnNl script).set (line - 1).toNat content ∧
        ((splitOnNl script).set (line - 1).toNat content).length =
          (splitOnNl script).length)) := by
  constructor
  · intro hb
    unfold fixLineInScript
    rw [if_pos hb]
  · intro h1 h2
    constructor
    · unfold fixLineInScript
      rw [if_neg (by omega)]
    · intro hc
      constructor
      · exact splitOnNl_joinNl _
          (set_no_newline _ _ _ (splitOnNl_no_newline script) hc)
          (set_ne_nil _ _ (splitOnNl_ne_nil script))
      · exact List.length_set _ _ _
  
/-- Witness for C8: replacing line 6 of a five-line document fails reporting
the valid range "1-5"; replacing line 2 with newline-free content keeps the
line count at five. -/
theorem claim_C8_witness :
    fixLineInScript (str "a\nb\nc\nd\ne") 6 (str "X") =
      .error (str "Line 6 out of range (valid: 1-5)") ∧
    ((splitOnNl (str "a\nb\nc\nd\ne")).set 1 (str "X")).length = 5 :=
  ⟨((claim_C8_replace_line (str "a\nb\nc\nd\ne") 6 (str "X")).1
      (by decide)).trans (by decide),
   (((claim_C8_replace_line (str "a\nb\nc\nd\ne") 2 (str "X")).2
      (by decide) (by decide)).2 (by decide)).2.trans (by decide)⟩

/-- Counterexample to C9: a run of `editScript` in which the write reports
failure (`success = false`) still overwrites the cache entry with the locally
edited script — the cache is overwritten by a mutation that did not
succeed. -/
theorem claim_C9_counterexample :
    (editScriptModel (fun _ => []) 10 20 (fun _ => none) (str "m") none
      (.edits [⟨1, str "X"⟩]) ⟨true, some (str "a\nb")⟩ (some false)).2 =
      .ok false ∧
    (editScriptModel (fun _ => []) 10 20 (fun _ => none) (str "m") none
      (.edits [⟨1, str "X"⟩]) ⟨true, some (str "a\nb")⟩ (some false)).1 (str "m") =
      some ⟨str "X\nb", [str "X", str "b"], 20, []⟩ := by decide

/-- C9 amended: the cache entry is created or overwritten on every successful
fetch and on every edit that reaches the write step — the latter regardless
of whether the write reports success; it is not touched when the fetch fails,
and it stays at the post-fetch state (no second write) when the edit
operation errors before the write or when the write call itself throws; and
every entry ever stored is internally consistent (content together with its
derived line array and hash, stored atomically). -/
theorem claim_C9_cache_lifecycle (hashFn : Str → Str) (nf nw : Nat)
    (cache : CacheMap) (m : Str) (cb : Option Str) (op : EditOp)
    (resp : FetchResult) (w : Option Bool) (startLine : Option Int) :
    (∀ s, resp.script = some s → resp.success = true → s ≠ [] →
      startLineTruthy startLine = false →
      getScriptCacheStep hashFn nf cache m cb resp startLine (getScriptCacheKey m cb) =
        some ⟨s, splitOnNl s, nf, hashFn s⟩) ∧
    ((resp.success = false ∨ scriptTruthy resp.script = false) →
      getScriptCacheStep hashFn nf cache m cb resp startLine = cache) ∧
    ((resp.success = false ∨ scriptTruthy resp.script = false) →
      (editScriptModel hashFn nf nw cache m cb op resp w).1 = cache ∧
      ∃ e, (editScriptModel hashFn nf nw cache m cb op resp w).2 = Except.error e) ∧
    (∀ s out b, resp.success = true → resp.script = some s → s ≠ [] →
      editScriptCore (splitOnNl s) op = .ok out → w = some b →
      (editScriptModel hashFn nf nw cache m cb op resp w).1 (getScriptCacheKey m cb) =
        some ⟨joinNl out, splitOnNl (joinNl out), nw, hashFn (joinNl out)⟩ ∧
      (editScriptModel hashFn nf nw cache m cb op resp w).2 = Except.ok b) ∧
    (∀ s e2, resp.success = true → resp.script = some s → s ≠ [] →
      editScriptCore (splitOnNl s) op = .error e2 →
      (editScriptModel hashFn nf nw cache m cb op resp w).1 =
        getScriptCacheStep hashFn nf cache m cb resp none ∧
      (editScriptModel hashFn nf nw cache m cb op resp w).2 = Except.error e2) ∧
    (∀ s out, resp.success = true → resp.script = some s → s ≠ [] →
      editScriptCore (splitOnNl s) op = .ok out → w = none →
      (editScriptModel hashFn nf nw cache m cb op resp w).1 =
        getScriptCacheStep hashFn nf cache m cb resp none ∧
      ∃ e, (editScriptModel hashFn nf nw cache m cb op resp w).2 = Except.error e) ∧
    ((∀ k e, cache k = some e → entryConsistent hashFn e) →
      ∀ k e, (editScriptModel hashFn nf nw cache m cb op resp w).1 k = some e →
        entryConsistent hashFn e) := by
  have hc1of : ∀ s, resp.script = some s → resp.success = true → s ≠ [] →
      getScriptCacheStep hashFn nf cache m cb resp none (getScriptCacheKey m cb) =
        some ⟨s, splitOnNl s, nf, hashFn s⟩ := by
    intro s hs hsucc hne
    unfold getScriptCacheStep
    rw [hs]
    dsimp only
    rw [if_pos (by rw [hsucc]; simp [hne, startLineTruthy])]
    unfold cacheScript
    rw [if_pos rfl]
  refine ⟨?_, ?_, ?_, ?_, ?_, ?_, ?_⟩
  · intro s hs hsucc hne hsl
    unfold getScriptCacheStep
    rw [hs]
    dsimp only
    rw [if_pos (by rw [hsucc, hsl]; simp [hne])]
    unfold cacheScript
    rw [if_pos rfl]
  · intro h
    exact getScriptCacheStep_fail hashFn nf cache m cb resp startLine h
  · intro h
    unfold editScriptModel
    rw [if_pos (by rcases h with h | h
                   · exact Or.inl h
                   · exact Or.inr h)]
    exact ⟨getScriptCacheStep_fail hashFn nf cache m cb resp none h, _, rfl⟩
  · intro s out b hsucc hs hne hcore hw
    unfold editScriptModel
    rw [if_neg (by rw [hsucc, hs]; simp [scriptTruthy, hne])]
    have hc1 : getScriptCacheStep hashFn nf cache m cb resp none
        (getScriptCacheKey m cb) = some ⟨s, splitOnNl s, nf, hashFn s⟩ := by
      unfold getScriptCacheStep
      rw [hs]
      dsimp only
      rw [if_pos (by rw [hsucc]; simp [hne, startLineTruthy])]
      unfold cacheScript
      rw [if_pos rfl]
    rw [hc1]
    dsimp only
    rw [hcore]
    dsimp only
    rw [hw]
    dsimp only
    constructor
    · unfold cacheScript
      rw [if_pos rfl]
    · rfl
  · intro s e2 hsucc hs hne hcore
    unfold editScriptModel
    rw [if_neg (by rw [hsucc, hs]; simp [scriptTruthy, hne])]
    rw [hc1of s hs hsucc hne]
    dsimp only
    rw [hcore]
    exact ⟨rfl, rfl⟩
  · intro s out hsucc hs hne hcore hw
    subst hw
    unfold editScriptModel
    rw [if_neg (by rw [hsucc, hs]; simp [scriptTruthy, hne])]
    rw [hc1of s hs hsucc hne]
    dsimp only
    rw [hcore]
    exact ⟨rfl, _, rfl⟩
  · intro hcons k e he
    unfold editScriptModel at he
    by_cases hfail : resp.success = false ∨ scriptTruthy resp.script = false
    · rw [if_pos hfail] at he
      exact getScriptCacheStep_consistent hashFn nf cache m cb resp none hcons k e he
    · rw [if_neg hfail] at he
      have hcons1 : ∀ k2 e2, getScriptCacheStep hashFn nf cache m cb resp none k2 =
          some e2 → entryConsistent hashFn e2 :=
        getScriptCacheStep_consistent hashFn nf cache m cb resp none hcons
      rcases hlook : getScriptCacheStep hashFn nf cache m cb resp none
          (getScriptCacheKey m cb) with _ | cached
      · rw [hlook] at he
        exact hcons1 k e he
      · rw [hlook] at he
        dsimp only at he
        rcases hcore : editScriptCore cached.lines op with err | out
        · rw [hcore] at he
          exact hcons1 k e he
        · rw [hcore] at he
          rcases w with _ | b
          · exact hcons1 k e he
          · dsimp only at he
            exact cacheScript_consistent hashFn nw _ m cb _ hcons1 k e he

/-- Witness for C9: a concrete successful run — fetch caches the fetched
script, the edit reaches the write step, and the final entry holds the edited
script with its derived line array, timestamp and hash. -/
theorem claim_C9_witness :
    (editScriptModel (fun _ => []) 10 20 (fun _ => none) (str "m") none
      (.edits [⟨1, str "X"⟩]) ⟨true, some (str "a\nb")⟩ (some true)).1 (str "m") =
      some ⟨str "X\nb", [str "X", str "b"], 20, []⟩ := by
  have h := (claim_C9_cache_lifecycle (fun _ => []) 10 20 (fun _ => none)
    (str "m") none (.edits [⟨1, str "X"⟩]) ⟨true, some (str "a\nb")⟩
    (some true) none).2.2.2.1 (str "a\nb") [str "X", str "b"] true
    rfl rfl (by decide) (by decide) rfl
  exact h.1.trans (by decide)

/-- C10: the size gate returns true iff the existing content is empty or
whitespace-only, or its line count is at most `maxLines`; concretely, an
empty document passes with threshold 30, a 30-line document passes, and a
31-line document is blocked. -/
theorem claim_C10_size_gate :
    (∀ (s : Str) (m : Nat), shouldAllowSetScript s m = true ↔
      (isWhitespaceOnly s = true ∨ (splitOnNl s).length ≤ m)) ∧
    shouldAllowSetScript (str "") 30 = true ∧
    shouldAllowSetScript (joinNl (List.replicate 30 (str "line"))) 30 = true ∧
    shouldAllowSetScript (joinNl (List.replicate 31 (str "line"))) 30 = false :=
  ⟨shouldAllowSetScript_iff, by decide, by decide, by decide⟩

end HiseMcp
